import Mathlib

/-!
# Verification of the 8-puzzle solver core

Shallow embedding of the state-space search engine of the 8-puzzle
repository: the board model and `applyMove` (from `puzzleLogic.ts`),
and the Manhattan-distance heuristic plus the A* search
(`getManhattanDistance`, `performAStarSearch` from `astar.ts`).

JavaScript runtime values that can appear in a board slot are modelled by
`JSVal` (`number`, `null`, and `undefined` — the latter arises from
out-of-range array reads).  Array reads and writes go through `jsGet` /
`jsSet`, which reproduce JavaScript array semantics for non-negative
indices (out-of-range reads give `undefined`; out-of-range writes extend
the array with `undefined` holes).  A write at a negative index is
modelled as not changing the array contents (in JavaScript it creates a
non-index property which is invisible to every array operation the code
performs on the stored boards).

The A* main loop is embedded with an explicit fuel parameter: the outer
`Option` of the search result is `none` when fuel runs out, and
`some r` when the source function returns, `r : Option _` being `null` or
the action array.  The fuel `SEARCH_FUEL` is proved sufficient for the
claims that need termination.
-/

/-- A JavaScript value that can sit in a board slot: a number, `null`,
or `undefined`. -/
inductive JSVal where
  | num (n : ℤ)
  | null
  | undef
deriving DecidableEq, Repr

/-- `BoardState` from `types.ts`: the board as an array of slot values. -/
abbrev BoardState := List JSVal

/-- JavaScript array read `b[i]`: `undefined` when out of range
(including negative indices). -/
def jsGet (b : BoardState) (i : ℤ) : JSVal :=
  if h : 0 ≤ i ∧ i.toNat < b.length then b.get ⟨i.toNat, h.2⟩ else (.undef)

/-- JavaScript array write `b[i] = v` (as a value transformation on the
array contents): in-range writes set the slot, writes past the end extend
the array with `undefined` holes, writes at negative indices do not
change the array contents. -/
def jsSet (b : BoardState) (i : ℤ) (v : JSVal) : BoardState :=
  if i < 0 then b
  else if i.toNat < b.length then b.set i.toNat v
  else b ++ List.replicate (i.toNat - b.length) .undef ++ [v]

/-- `NUM_SQUARES` from `puzzleLogic.ts`. -/
def NUM_SQUARES : ℕ := 9

/-- `GOAL_STATE` from `puzzleLogic.ts`. -/
def GOAL_STATE : BoardState :=
  [.num 1, .num 2, .num 3, .num 4, .num 5, .num 6, .num 7, .num 8, .num 0]

/-- `PosMap` from `types.ts`: adjacency table keyed by 1-indexed square
numbers; a key may be absent.  Values are arrays of square numbers. -/
def PosMap : Type := ℕ → Option (List ℤ)

/-- `POS_ADJACENCY` from `puzzleLogic.ts`. -/
def POS_ADJACENCY : PosMap := fun k =>
  match k with
  | 1 => some [2, 4]
  | 2 => some [1, 3, 5]
  | 3 => some [2, 6]
  | 4 => some [1, 7, 5]
  | 5 => some [2, 4, 6, 8]
  | 6 => some [3, 5, 9]
  | 7 => some [4, 8]
  | 8 => some [7, 5, 9]
  | 9 => some [8, 6]
  | _ => none

/-- `getSquareNumberFromIndex` from `puzzleLogic.ts` (0-indexed board
index to 1-indexed square number). -/
def getSquareNumberFromIndex (index0 : ℕ) : ℕ := index0 + 1

/-- `getIndexFromSquareNumber` from `puzzleLogic.ts` (1-indexed square
number to 0-indexed board index). -/
def getIndexFromSquareNumber (squareNumber1 : ℤ) : ℤ := squareNumber1 - 1

/-- `applyMove` from `puzzleLogic.ts`.  Returns a new board with the tile
at `pieceToMoveIndex` moved into `targetEmptyIndex`; on a `null` tile or a
non-empty target it returns the (copy of the) original board. -/
def applyMove (currentBoardState : BoardState)
    (pieceToMoveIndex targetEmptyIndex : ℤ) : BoardState :=
  let newBoardState := currentBoardState
  let tileValue := jsGet newBoardState pieceToMoveIndex
  if tileValue = JSVal.null then
    newBoardState
  else if jsGet newBoardState targetEmptyIndex ≠ JSVal.num 0 then
    newBoardState
  else
    jsSet (jsSet newBoardState targetEmptyIndex tileValue) pieceToMoveIndex (.num 0)

/-- The result of `getManhattanDistance`: a JavaScript number that is
either a finite total or the sentinel `Infinity`. -/
inductive JSNum where
  | finite (n : ℕ)
  | infinity
deriving DecidableEq, Repr

/-- Integer square root (the value of `Math.sqrt(numSquares)` when that
is an integer): the largest `d` with `d * d ≤ n`, computed as the number
of `k ≤ n` with `k * k ≤ n`, minus one. -/
def intSqrt (n : ℕ) : ℕ :=
  (List.range (n + 1)).countP (fun k => k * k ≤ n) - 1

/-- The accumulation loop of `getManhattanDistance` (`astar.ts`, lines
26–44), with the grid side `dimension` already computed.  Slots holding
`0` or `null` are skipped, as are tile values missing from `goalState`
(`indexOf === -1`). -/
def manhattanStep (boardState goalState : BoardState) (dimension : ℕ)
    (totalDistance : ℕ) (i : ℕ) : ℕ :=
  let tileValue := jsGet boardState (i : ℤ)
  if tileValue ≠ JSVal.num 0 ∧ tileValue ≠ JSVal.null then
    match goalState.findIdx? (· = tileValue) with
    | none => totalDistance
    | some targetIndex =>
        totalDistance
          + Nat.dist (i / dimension) (targetIndex / dimension)
          + Nat.dist (i % dimension) (targetIndex % dimension)
  else totalDistance

/-- The accumulation loop of `getManhattanDistance`. -/
def manhattanTotal (boardState goalState : BoardState) (dimension : ℕ) : ℕ :=
  (List.range boardState.length).foldl (manhattanStep boardState goalState dimension) 0

/-- `getManhattanDistance` from `astar.ts`: `Infinity` when `numSquares`
is not a perfect square (`Math.sqrt(numSquares)` not an integer),
otherwise the summed per-tile Manhattan distance. -/
def getManhattanDistance (boardState goalState : BoardState)
    (numSquares : ℕ) : JSNum :=
  let dimension := intSqrt numSquares
  if dimension * dimension ≠ numSquares then .infinity
  else .finite (manhattanTotal boardState goalState dimension)

/-- `SearchNodeAction` from `types.ts`.  `tileValue` is modelled as a
`JSVal` because at runtime the recorded value is whatever the board slot
held. -/
structure SearchNodeAction where
  tileValue : JSVal
  fromIndex : ℤ
  toIndex : ℤ
deriving DecidableEq, Repr

/-- `SearchNode` from `types.ts`, restricted to the two shapes the code
constructs: the root (`parent` and `action` both `null`) and a child node
(both present). -/
inductive SearchNode where
  | start (state : BoardState) (g h f : ℕ)
  | step (state : BoardState) (parent : SearchNode)
      (action : SearchNodeAction) (g h f : ℕ)

namespace SearchNode

/-- The board state of a node. -/
def state : SearchNode → BoardState
  | .start s _ _ _ => s
  | .step s _ _ _ _ _ => s

/-- The path cost of a node. -/
def g : SearchNode → ℕ
  | .start _ g0 _ _ => g0
  | .step _ _ _ g0 _ _ => g0

/-- The f-score of a node. -/
def f : SearchNode → ℕ
  | .start _ _ _ f0 => f0
  | .step _ _ _ _ _ f0 => f0

end SearchNode

/-- `areArraysEqual` from `astar.ts`: slot-by-slot comparison. -/
def areArraysEqual (arr1 arr2 : BoardState) : Bool :=
  if arr1.length ≠ arr2.length then false
  else (List.range arr1.length).all fun i => jsGet arr1 (i : ℤ) = jsGet arr2 (i : ℤ)

/-- `reconstructPath` from `astar.ts`: collect the actions from the root
down to `node` (the source walks parent links upward and prepends). -/
def reconstructPath : SearchNode → List SearchNodeAction
  | .start _ _ _ _ => []
  | .step _ parent action _ _ _ => reconstructPath parent ++ [action]

/-- The canonical serialization of a board used for closed-set membership
(`state.toString()` in the source): numbers keep their value, `null` and
`undefined` both serialize to the empty string. -/
def boardKey (b : BoardState) : List (Option ℤ) :=
  b.map fun v => match v with
    | .num n => some n
    | .null => none
    | .undef => none

/-- The heuristic value the search uses for a state:
`getManhattanDistance(state, GOAL_STATE, NUM_SQUARES)`, which is always
finite because `NUM_SQUARES = 9` is a perfect square (see
`getManhattanDistance_goal`). -/
def hGoal (s : BoardState) : ℕ := manhattanTotal s GOAL_STATE 3

/-- In the search, `getManhattanDistance` is always called with
`NUM_SQUARES`, where it computes exactly `hGoal`. -/
theorem getManhattanDistance_goal (s : BoardState) :
    getManhattanDistance s GOAL_STATE NUM_SQUARES = .finite (hGoal s) := rfl

/-- The body of the `for` loop over `movablePieceSquareNumbers`
(`astar.ts`, lines 160–213).  `openAcc`/`closedAcc` are the openSet and
closedSet as mutated so far; pushes append to both.  The scan for an
existing open node with the same state (lines 184–202) is included even
though it can never fire (every open state is already in the closed set). -/
def expandMoves (currentNode : SearchNode) (emptyIdx : ℕ) :
    List ℤ → List SearchNode → List (List (Option ℤ)) →
    List SearchNode × List (List (Option ℤ))
  | [], openAcc, closedAcc => (openAcc, closedAcc)
  | movablePieceSquareNum :: rest, openAcc, closedAcc =>
    let pieceToMoveIndex := getIndexFromSquareNumber movablePieceSquareNum
    let tileValueMoved := jsGet currentNode.state pieceToMoveIndex
    if tileValueMoved = JSVal.null then
      expandMoves currentNode emptyIdx rest openAcc closedAcc
    else
      let neighborState :=
        jsSet (jsSet currentNode.state (emptyIdx : ℤ) tileValueMoved)
          pieceToMoveIndex (.num 0)
      let neighborKey := boardKey neighborState
      if neighborKey ∈ closedAcc then
        expandMoves currentNode emptyIdx rest openAcc closedAcc
      else
        let gScore := currentNode.g + 1
        let hScore := hGoal neighborState
        let fScore := gScore + hScore
        let push := fun (openSet : List SearchNode) =>
          let action : SearchNodeAction :=
            ⟨tileValueMoved, pieceToMoveIndex, (emptyIdx : ℤ)⟩
          let neighborNode : SearchNode :=
            .step neighborState currentNode action gScore hScore fScore
          expandMoves currentNode emptyIdx rest (openSet ++ [neighborNode])
            (closedAcc ++ [neighborKey])
        match openAcc.findIdx? (fun nd => areArraysEqual nd.state neighborState) with
        | some existingIdx =>
          match openAcc.get? existingIdx with
          | some existingNode =>
            if existingNode.f ≤ fScore then
              expandMoves currentNode emptyIdx rest openAcc closedAcc
            else
              push (openAcc.eraseIdx existingIdx)
          | none => push (openAcc.eraseIdx existingIdx)
        | none => push openAcc

/-- The `while` loop of `performAStarSearch` (`astar.ts`, lines 130–214),
with explicit fuel.  Result: `none` = out of fuel; `some none` = the
source returned `null`; `some (some path)` = the source returned `path`.
Each iteration stably sorts the open set by f-score and pops the head,
matching `openSet.sort((a, b) => a.f - b.f)` followed by `shift()`. -/
def searchLoop (adjacencyMap : PosMap) :
    ℕ → List SearchNode → List (List (Option ℤ)) →
    Option (Option (List SearchNodeAction))
  | 0, _, _ => none
  | fuel + 1, openSet, closedSet =>
    match List.insertionSort (fun a b => a.f ≤ b.f) openSet with
    | [] => some none
    | currentNode :: restOpen =>
      if areArraysEqual currentNode.state GOAL_STATE then
        some (some (reconstructPath currentNode))
      else
        match currentNode.state.findIdx? (· = JSVal.num 0) with
        | none => some none
        | some emptyIdx =>
          let emptySquareNumber := getSquareNumberFromIndex emptyIdx
          match adjacencyMap emptySquareNumber with
          | none => searchLoop adjacencyMap fuel restOpen closedSet
          | some movablePieceSquareNumbers =>
            let next :=
              expandMoves currentNode emptyIdx movablePieceSquareNumbers
                restOpen closedSet
            searchLoop adjacencyMap fuel next.1 next.2

/-- Fuel for the search loop; proved sufficient for every 3×3 search the
claims exercise (the reachable state space has at most 9! states). -/
def SEARCH_FUEL : ℕ := 1000000

/-- `performAStarSearch` from `astar.ts`. -/
def performAStarSearch (initialState : BoardState) (adjacencyMap : PosMap) :
    Option (Option (List SearchNodeAction)) :=
  if areArraysEqual initialState GOAL_STATE then some (some [])
  else
    let startNode : SearchNode :=
      .start initialState 0 (hGoal initialState) (0 + hGoal initialState)
    searchLoop adjacencyMap SEARCH_FUEL [startNode] [boardKey initialState]

/-! ## Basic lemmas about the JavaScript array model -/

theorem jsGet_coe_lt (b : BoardState) (i : ℕ) (h : i < b.length) :
    jsGet b (i : ℤ) = b.get ⟨i, h⟩ := by
  unfold jsGet
  rw [dif_pos]
  · simp
  · exact ⟨Int.ofNat_nonneg i, by simpa using h⟩

theorem jsGet_coe_ge (b : BoardState) (i : ℕ) (h : b.length ≤ i) :
    jsGet b (i : ℤ) = .undef := by
  unfold jsGet
  rw [dif_neg]
  rintro ⟨-, h2⟩
  simp only [Int.toNat_ofNat] at h2
  omega

theorem jsGet_num_range {b : BoardState} {i : ℤ} {k : ℤ}
    (h : jsGet b i = .num k) : 0 ≤ i ∧ i.toNat < b.length := by
  by_contra hc
  unfold jsGet at h
  rw [dif_neg] at h
  · exact JSVal.noConfusion h
  · intro hc2; exact hc ⟨hc2.1, hc2.2⟩

theorem jsSet_coe_lt (b : BoardState) (i : ℕ) (v : JSVal) (h : i < b.length) :
    jsSet b (i : ℤ) v = b.set i v := by
  unfold jsSet
  rw [if_neg (by omega), if_pos (by simpa using h)]
  simp

theorem jsSet_self {b : BoardState} {i : ℤ} {v : JSVal}
    (h0 : 0 ≤ i) (h1 : i.toNat < b.length) (hv : jsGet b i = v) :
    jsSet b i v = b := by
  unfold jsSet
  rw [if_neg (by omega), if_pos h1]
  unfold jsGet at hv
  rw [dif_pos ⟨h0, h1⟩] at hv
  subst hv
  apply List.ext_get (by simp)
  intro n hn1 hn2
  simp only [List.get_eq_getElem, List.getElem_set]
  split
  · next heq => subst heq; rfl
  · rfl

theorem areArraysEqual_iff (a b : BoardState) :
    areArraysEqual a b = true ↔ a = b := by
  constructor
  · intro h
    unfold areArraysEqual at h
    split at h
    · exact absurd h (by simp)
    · next hlen =>
      rw [Ne, not_not] at hlen
      rw [List.all_eq_true] at h
      apply List.ext_get hlen
      intro n h1 h2
      have := h n (List.mem_range.mpr h1)
      rw [jsGet_coe_lt a n h1, jsGet_coe_lt b n h2] at this
      exact of_decide_eq_true this
  · rintro rfl
    unfold areArraysEqual
    simp

theorem areArraysEqual_self (a : BoardState) : areArraysEqual a a = true :=
  (areArraysEqual_iff a a).mpr rfl

theorem areArraysEqual_ne {a b : BoardState} (h : a ≠ b) :
    areArraysEqual a b = false := by
  rcases hb : areArraysEqual a b with _ | _
  · rfl
  · exact absurd ((areArraysEqual_iff a b).mp hb) h

/-! ## The easy search facts: goal start and blankless boards -/

/-- Any positive fuel exposes one loop iteration. -/
theorem SEARCH_FUEL_succ : SEARCH_FUEL = 999999 + 1 := rfl

/-- Claim C4 helper: a board with no blank differs from `GOAL_STATE`. -/
theorem ne_goal_of_no_blank {b : BoardState}
    (h : ∀ v ∈ b, v ≠ JSVal.num 0) : b ≠ GOAL_STATE := by
  intro hb
  subst hb
  exact h (.num 0) (by simp [GOAL_STATE]) rfl

/-- The open set sorts to a singleton. -/
theorem insertionSort_singleton (nd : SearchNode) :
    List.insertionSort (fun a b => a.f ≤ b.f) [nd] = [nd] := by
  simp [List.insertionSort, List.orderedInsert]

/-- One iteration of the search loop on a blankless popped state returns
the defensive `null`. -/
theorem searchLoop_no_blank (adjacencyMap : PosMap) (fuel : ℕ)
    (nd : SearchNode) (closed : List (List (Option ℤ)))
    (hg : areArraysEqual nd.state GOAL_STATE = false)
    (hb : nd.state.findIdx? (· = JSVal.num 0) = none) :
    searchLoop adjacencyMap (fuel + 1) [nd] closed = some none := by
  rw [searchLoop, insertionSort_singleton]
  simp only [hg, hb]
  rfl

/-! ## Claim C4: a goal start returns the empty path for any adjacency -/

/-- C4.  For every adjacency table `adjacencyMap`,
`performAStarSearch(GOAL_STATE, adjacencyMap)` returns the empty action
sequence immediately (the early-return fires before any adjacency lookup
or node expansion, so the result does not depend on `adjacencyMap`). -/
theorem performAStarSearch_goal_immediate (adjacencyMap : PosMap) :
    performAStarSearch GOAL_STATE adjacencyMap = some (some []) := by
  unfold performAStarSearch
  rw [if_pos (areArraysEqual_self GOAL_STATE)]

/-! ## Claim C9: a blankless board returns the defensive null -/

/-- C9.  For every board containing no blank sentinel `0` (hence distinct
from `GOAL_STATE`) and every adjacency table, the search pops the start
board on its first iteration, fails to locate the blank
(`indexOf(0) === -1`) and returns the defensive failure `null` without
looping or throwing. -/
theorem performAStarSearch_no_blank (b : BoardState) (adjacencyMap : PosMap)
    (h : ∀ v ∈ b, v ≠ JSVal.num 0) :
    performAStarSearch b adjacencyMap = some none := by
  have hne : b ≠ GOAL_STATE := ne_goal_of_no_blank h
  unfold performAStarSearch
  rw [if_neg (by rw [areArraysEqual_ne hne]; exact Bool.false_ne_true)]
  rw [SEARCH_FUEL_succ]
  exact searchLoop_no_blank adjacencyMap 999999 _ _
    (areArraysEqual_ne hne)
    (List.findIdx?_eq_none_iff.mpr fun x hx => by
      simpa using h x hx)

/-- Witness for C9 at the concrete blankless board `[1,…,9]`. -/
theorem performAStarSearch_no_blank_witness :
    (∀ v ∈ ([.num 1, .num 2, .num 3, .num 4, .num 5, .num 6, .num 7,
        .num 8, .num 9] : BoardState), v ≠ JSVal.num 0) ∧
    performAStarSearch
      [.num 1, .num 2, .num 3, .num 4, .num 5, .num 6, .num 7, .num 8,
        .num 9] POS_ADJACENCY = some none :=
  ⟨by decide, performAStarSearch_no_blank _ _ (by decide)⟩

/-! ## Claim C5: non-square sizes yield the Infinity sentinel, not a
typed error -/

/-- C5 counterexample.  At the non-perfect-square size `8`,
`getManhattanDistance` returns the numeric sentinel `Infinity` — it does
not signal a typed invalid-input error, contradicting the claim. -/
theorem getManhattanDistance_infinity_cex :
    (∀ d : ℕ, d * d ≠ 8) ∧
    getManhattanDistance GOAL_STATE GOAL_STATE 8 = JSNum.infinity := by
  constructor
  · intro d hd
    have h4 : d < 4 := by nlinarith
    interval_cases d <;> omega
  · decide

/-- C5 amended.  For every board, goal board and every `numSquares` that
is not a perfect square, `getManhattanDistance` returns the sentinel
`Infinity` as its result (the source has no typed-error path; the
`return Infinity` branch is taken). -/
theorem getManhattanDistance_not_square (b g : BoardState) (n : ℕ)
    (h : ∀ d : ℕ, d * d ≠ n) :
    getManhattanDistance b g n = JSNum.infinity := by
  unfold getManhattanDistance
  rw [if_pos (h (intSqrt n))]

/-- Witness for the amended C5 at the concrete size `5`. -/
theorem getManhattanDistance_not_square_witness :
    (∀ d : ℕ, d * d ≠ 5) ∧
    getManhattanDistance GOAL_STATE GOAL_STATE 5 = JSNum.infinity :=
  ⟨fun d hd => by
      have h3 : d < 3 := by nlinarith
      interval_cases d <;> omega,
    getManhattanDistance_not_square GOAL_STATE GOAL_STATE 5 fun d hd => by
      have h3 : d < 3 := by nlinarith
      interval_cases d <;> omega⟩

/-! ## Claim C7: invalid moves and `applyMove` -/

/-- C7 counterexample.  Calling `applyMove` with the out-of-range source
slot `9` (a missing value: the read gives `undefined`, which the
`=== null` guard does not catch) while the target slot `8` holds the
blank corrupts the board instead of returning it unchanged: the blank
slot receives `undefined` and the array is extended. -/
theorem applyMove_out_of_range_cex :
    jsGet GOAL_STATE 9 = JSVal.undef ∧
    jsGet GOAL_STATE 8 = JSVal.num 0 ∧
    applyMove GOAL_STATE 9 8 ≠ GOAL_STATE := by decide

/-- C7 amended.  `applyMove` returns the board value-unchanged whenever
the target slot does not hold the blank sentinel, or the source slot
holds `null`, or the source slot holds the blank sentinel itself.  (The
remaining precondition violation — an out-of-range source slot combined
with a blank target — is *not* caught and corrupts the board, see
`applyMove_out_of_range_cex`.) -/
theorem applyMove_invalid_no_op (b : BoardState) (fromSlot toSlot : ℤ)
    (h : jsGet b toSlot ≠ JSVal.num 0 ∨ jsGet b fromSlot = JSVal.null ∨
      jsGet b fromSlot = JSVal.num 0) :
    applyMove b fromSlot toSlot = b := by
  unfold applyMove
  rcases h with h | h | h
  · by_cases hn : jsGet b fromSlot = JSVal.null
    · rw [if_pos hn]
    · rw [if_neg hn, if_pos h]
  · rw [if_pos h]
  · rw [if_neg (by rw [h]; decide)]
    by_cases ht : jsGet b toSlot ≠ JSVal.num 0
    · rw [if_pos ht]
    · rw [not_not] at ht
      rw [if_neg (by rw [ht]; simp)]
      obtain ⟨hf0, hf1⟩ := jsGet_num_range h
      obtain ⟨ht0, ht1⟩ := jsGet_num_range ht
      rw [h, jsSet_self ht0 ht1 ht, jsSet_self hf0 hf1 h]

/-- Witness for the amended C7: a call whose target slot does not hold
the blank is a no-op. -/
theorem applyMove_invalid_no_op_witness :
    (jsGet GOAL_STATE 0 ≠ JSVal.num 0) ∧
    applyMove GOAL_STATE 3 0 = GOAL_STATE :=
  ⟨by decide, applyMove_invalid_no_op GOAL_STATE 3 0 (Or.inl (by decide))⟩

/-! ## Claim C6: the Manhattan distance on valid boards -/

/-- A structurally valid board with `n` slots: one blank `0` and each
tile `1..n-1` exactly once, in goal order.  A board is valid iff it is a
permutation of this list. -/
def validBoard (n : ℕ) : BoardState :=
  (List.range n).map fun (k : ℕ) => JSVal.num (k : ℤ)

theorem length_validBoard (n : ℕ) : (validBoard n).length = n := by
  simp [validBoard]

theorem nodup_validBoard (n : ℕ) : (validBoard n).Nodup := by
  refine List.Nodup.map ?_ (List.nodup_range n)
  intro a b hab
  simpa using hab

theorem mem_validBoard {n : ℕ} {v : JSVal} :
    v ∈ validBoard n ↔ ∃ k : ℕ, k < n ∧ v = JSVal.num k := by
  simp only [validBoard, List.mem_map, List.mem_range]
  constructor
  · rintro ⟨k, hk, rfl⟩; exact ⟨k, hk, rfl⟩
  · rintro ⟨k, hk, rfl⟩; exact ⟨k, hk, rfl⟩

/-- `GOAL_STATE` is itself a valid board. -/
theorem GOAL_STATE_perm_validBoard : GOAL_STATE.Perm (validBoard 9) := by
  decide

/-- The spec-side Manhattan distance, written from the specification: the
sum over all non-blank slots of `|Δrow| + |Δcol|` between a tile's
current slot and its slot in the goal board, the blank contributing 0. -/
def manhattanSpecAt (b g : BoardState) (dimension : ℕ) (i : ℕ) : ℕ :=
  match jsGet b (i : ℤ) with
  | JSVal.num t =>
      if t = 0 then 0
      else
        match g.findIdx? (· = JSVal.num t) with
        | some j =>
            Nat.dist (i / dimension) (j / dimension)
              + Nat.dist (i % dimension) (j % dimension)
        | none => 0
  | _ => 0

/-- The spec-side Manhattan distance as a sum over all slots. -/
def manhattanSpec (b g : BoardState) (dimension : ℕ) : ℕ :=
  ((List.range b.length).map (manhattanSpecAt b g dimension)).sum

/-! ### findIdx? helpers -/

theorem findIdx?_some_facts {α : Type} {l : List α} {p : α → Bool} {i : ℕ}
    (h : l.findIdx? p = some i) :
    ∃ hlt : i < l.length, p (l.get ⟨i, hlt⟩) = true ∧
      ∀ j (hj : j < i), p (l.get ⟨j, hj.trans hlt⟩) = false := by
  rw [List.findIdx?_eq_some_iff_findIdx_eq] at h
  obtain ⟨hlt, hidx⟩ := h
  rw [List.findIdx_eq hlt] at hidx
  exact ⟨hlt, hidx.1, fun j hj => hidx.2 j hj⟩

theorem findIdx?_of_nodup_get {α : Type} [DecidableEq α] {l : List α} {v : α}
    {j : ℕ} (hnd : l.Nodup) (hj : j < l.length) (hv : l.get ⟨j, hj⟩ = v) :
    l.findIdx? (· = v) = some j := by
  rw [List.findIdx?_eq_some_iff_findIdx_eq]
  refine ⟨hj, ?_⟩
  rw [List.findIdx_eq hj]
  constructor
  · simpa using hv
  · intro k hk
    simp only [decide_eq_false_iff_not]
    intro hkv
    have : l.get ⟨k, hk.trans hj⟩ = l.get ⟨j, hj⟩ := by
      simp only [List.get_eq_getElem] at hv ⊢
      rw [hv, hkv]
    have hkj : k = j := by
      have := List.Nodup.get_inj_iff hnd |>.mp this
      simpa using this
    omega

theorem findIdx?_isSome_of_mem {α : Type} [DecidableEq α] {l : List α} {v : α}
    (h : v ∈ l) : ∃ j, l.findIdx? (· = v) = some j := by
  rcases hf : l.findIdx? (· = v) with _ | j
  · rw [List.findIdx?_eq_none_iff] at hf
    have := hf v h
    simp at this
  · exact ⟨j, rfl⟩

/-! ### Fold-to-sum bridge for the heuristic -/

theorem foldl_add_eq_sum (f : ℕ → ℕ) (step : ℕ → ℕ → ℕ)
    (hstep : ∀ acc i, step acc i = acc + f i) :
    ∀ (l : List ℕ) (init : ℕ), l.foldl step init = init + (l.map f).sum := by
  intro l
  induction l with
  | nil => intro init; simp
  | cons x xs ih =>
    intro init
    simp only [List.foldl_cons, List.map_cons, List.sum_cons, hstep]
    rw [ih]
    omega

/-! ### The integer square root on perfect squares -/

theorem countP_range_le (d m : ℕ) :
    (List.range m).countP (fun k => decide (k ≤ d)) = min (d + 1) m := by
  induction m with
  | zero => simp
  | succ m ih =>
    rw [List.range_succ, List.countP_append, ih]
    by_cases hm : m ≤ d
    · simp only [List.countP_cons, List.countP_nil, hm]
      simp
      omega
    · simp only [List.countP_cons, List.countP_nil]
      have : (decide (m ≤ d)) = false := by simpa using hm
      rw [this]
      simp
      omega

theorem intSqrt_sq (d : ℕ) : intSqrt (d * d) = d := by
  unfold intSqrt
  have hcong : (List.range (d * d + 1)).countP (fun k => decide (k * k ≤ d * d)) =
      (List.range (d * d + 1)).countP (fun k => decide (k ≤ d)) := by
    apply List.countP_congr
    intro x _
    simp only [decide_eq_true_eq]
    exact ⟨fun h => Nat.mul_self_le_mul_self_iff.mp h,
      fun h => Nat.mul_self_le_mul_self_iff.mpr h⟩
  rw [hcong, countP_range_le d (d * d + 1)]
  have hdd : d ≤ d * d := by nlinarith
  omega

/-! ### Valid boards seen through `jsGet` -/

theorem valid_get_num {b : BoardState} {n : ℕ} (hb : b.Perm (validBoard n))
    {i : ℕ} (hi : i < b.length) :
    ∃ t : ℕ, t < n ∧ b.get ⟨i, hi⟩ = JSVal.num t := by
  have hmem : b.get ⟨i, hi⟩ ∈ b := List.get_mem b i hi
  have := (hb.mem_iff).mp hmem
  obtain ⟨k, hk, hv⟩ := mem_validBoard.mp this
  exact ⟨k, hk, hv⟩

theorem valid_length {b : BoardState} {n : ℕ} (hb : b.Perm (validBoard n)) :
    b.length = n := by
  have := hb.length_eq
  rwa [length_validBoard] at this

theorem valid_nodup {b : BoardState} {n : ℕ} (hb : b.Perm (validBoard n)) :
    b.Nodup := hb.nodup_iff.mpr (nodup_validBoard n)

/-! ### The heuristic loop equals the spec-side sum -/

theorem foldl_add_eq_sum_mem (f : ℕ → ℕ) (step : ℕ → ℕ → ℕ) :
    ∀ (l : List ℕ), (∀ acc, ∀ i ∈ l, step acc i = acc + f i) →
    ∀ init, l.foldl step init = init + (l.map f).sum := by
  intro l
  induction l with
  | nil => intro _ init; simp
  | cons x xs ih =>
    intro hstep init
    simp only [List.foldl_cons, List.map_cons, List.sum_cons]
    rw [hstep init x (by simp), ih (fun acc i hi => hstep acc i (by simp [hi]))]
    omega

theorem manhattanStep_eq_specAt (b g : BoardState) (d : ℕ) {i : ℕ}
    (hi : ∃ t : ℤ, jsGet b (i : ℤ) = JSVal.num t) (acc : ℕ) :
    manhattanStep b g d acc i = acc + manhattanSpecAt b g d i := by
  obtain ⟨t, ht⟩ := hi
  unfold manhattanStep manhattanSpecAt
  simp only [ht]
  by_cases ht0 : t = 0
  · subst ht0
    simp
  · have hcond : (JSVal.num t ≠ JSVal.num 0 ∧ JSVal.num t ≠ JSVal.null) := by
      constructor
      · intro hc; exact ht0 (by injection hc)
      · intro hc; exact JSVal.noConfusion hc
    rw [if_pos hcond, if_neg ht0]
    rcases hidx : g.findIdx? (· = JSVal.num t) with _ | j
    · simp
    · simp only []
      omega

theorem manhattanTotal_eq_spec (b g : BoardState) (d : ℕ)
    (hall : ∀ (i : ℕ), i < b.length → ∃ t : ℤ, jsGet b (i : ℤ) = JSVal.num t) :
    manhattanTotal b g d = manhattanSpec b g d := by
  unfold manhattanTotal manhattanSpec
  rw [foldl_add_eq_sum_mem (manhattanSpecAt b g d) (manhattanStep b g d)
    (List.range b.length) ?hstep 0]
  · omega
  case hstep =>
    intro acc i hi
    exact manhattanStep_eq_specAt b g d (hall i (List.mem_range.mp hi)) acc

theorem manhattanSpec_zero_iff (b g : BoardState) (n d : ℕ) (hn : d * d = n)
    (hb : b.Perm (validBoard n)) (hg : g.Perm (validBoard n)) :
    manhattanSpec b g d = 0 ↔
      ∀ i : ℕ, jsGet b (i : ℤ) ≠ JSVal.num 0 → jsGet b (i : ℤ) = jsGet g (i : ℤ) := by
  have hbl := valid_length hb
  have hgl := valid_length hg
  constructor
  · intro hsum i hne
    by_cases hi : i < b.length
    · have hfi : manhattanSpecAt b g d i = 0 := by
        have hz := List.sum_eq_zero_iff.mp hsum
        exact hz _ (List.mem_map.mpr ⟨i, List.mem_range.mpr hi, rfl⟩)
      obtain ⟨t, htn, hget⟩ := valid_get_num hb hi
      have hjs : jsGet b (i : ℤ) = JSVal.num t := by
        rw [jsGet_coe_lt b i hi]; exact hget
      by_cases ht0 : (t : ℤ) = 0
      · exact absurd (by rw [hjs, ht0]) hne
      · have hmem : JSVal.num t ∈ g := by
          rw [hg.mem_iff]
          exact mem_validBoard.mpr ⟨t, htn, rfl⟩
        obtain ⟨j, hj⟩ := findIdx?_isSome_of_mem hmem
        unfold manhattanSpecAt at hfi
        rw [hjs] at hfi
        simp only [hj, if_neg ht0] at hfi
        obtain ⟨hjlt, hpj, -⟩ := findIdx?_some_facts hj
        have hid : i = j := by
          have h1 : i / d = j / d :=
            Nat.eq_of_dist_eq_zero (by omega)
          have h2 : i % d = j % d :=
            Nat.eq_of_dist_eq_zero (by omega)
          have hi1 := Nat.div_add_mod i d
          have hj1 := Nat.div_add_mod j d
          rw [h1, h2] at hi1
          omega
        subst hid
        rw [hjs, jsGet_coe_lt g i hjlt]
        exact (of_decide_eq_true hpj).symm
    · rw [jsGet_coe_ge b i (le_of_not_lt hi), jsGet_coe_ge g i (by omega)]
  · intro hall
    apply List.sum_eq_zero
    intro x hx
    obtain ⟨i, hi, rfl⟩ := List.mem_map.mp hx
    rw [List.mem_range] at hi
    obtain ⟨t, htn, hget⟩ := valid_get_num hb hi
    have hjs : jsGet b (i : ℤ) = JSVal.num t := by
      rw [jsGet_coe_lt b i hi]; exact hget
    unfold manhattanSpecAt
    rw [hjs]
    by_cases ht0 : (t : ℤ) = 0
    · simp [ht0]
    · have hne : jsGet b (i : ℤ) ≠ JSVal.num 0 := by
        rw [hjs]
        intro hc
        exact ht0 (by injection hc)
      have hbg := hall i hne
      have hilt : i < g.length := by omega
      have hgi : g.get ⟨i, hilt⟩ = JSVal.num t := by
        rw [hjs, jsGet_coe_lt g i hilt] at hbg
        exact hbg.symm
      simp only [if_neg ht0, findIdx?_of_nodup_get (valid_nodup hg) hilt hgi,
        Nat.dist_self]
      omega

theorem getManhattanDistance_valid_eq (b g : BoardState) (n d : ℕ)
    (hd : d * d = n) (hb : b.Perm (validBoard n)) (hg : g.Perm (validBoard n)) :
    getManhattanDistance b g n = JSNum.finite (manhattanSpec b g d) := by
  have hint : intSqrt n = d := by rw [← hd, intSqrt_sq]
  have hbm : ∀ (i : ℕ), i < b.length → ∃ t : ℤ, jsGet b (i : ℤ) = JSVal.num t := by
    intro i hi
    obtain ⟨t, _, hv⟩ := valid_get_num hb hi
    exact ⟨t, by rw [jsGet_coe_lt b i hi]; exact hv⟩
  unfold getManhattanDistance
  rw [if_neg (by rw [hint, hd]; exact fun hc => hc rfl)]
  rw [hint, manhattanTotal_eq_spec b g d hbm]

/-- C6.  On valid boards (each a permutation of the tiles `0..n-1`) of a
perfect-square size `n = d * d`, `getManhattanDistance` computes exactly
the spec-side sum `manhattanSpec` of per-tile `|Δrow| + |Δcol|` distances
(the blank contributing 0); as a natural number the result is
non-negative, it is `0` exactly when every non-blank tile already sits in
its goal slot, and the distance from any valid board to itself is `0`. -/
theorem getManhattanDistance_valid_props (b g : BoardState) (n d : ℕ)
    (hd : d * d = n) (hb : b.Perm (validBoard n)) (hg : g.Perm (validBoard n)) :
    getManhattanDistance b g n = JSNum.finite (manhattanSpec b g d) ∧
    (getManhattanDistance b g n = JSNum.finite 0 ↔
      ∀ i : ℕ, jsGet b (i : ℤ) ≠ JSVal.num 0 → jsGet b (i : ℤ) = jsGet g (i : ℤ)) ∧
    getManhattanDistance b b n = JSNum.finite 0 := by
  have heq := getManhattanDistance_valid_eq b g n d hd hb hg
  have heqb := getManhattanDistance_valid_eq b b n d hd hb hb
  refine ⟨heq, ?_, ?_⟩
  · rw [heq]
    constructor
    · intro h
      exact (manhattanSpec_zero_iff b g n d hd hb hg).mp (by injection h)
    · intro h
      rw [(manhattanSpec_zero_iff b g n d hd hb hg).mpr h]
  · rw [heqb, (manhattanSpec_zero_iff b b n d hd hb hb).mpr fun i _ => rfl]

/-- Witness for C6 at `n = 9`, `d = 3`, a one-move board and
`GOAL_STATE`. -/
theorem getManhattanDistance_valid_props_witness :
    (3 * 3 = 9) ∧
    ([.num 1, .num 2, .num 3, .num 4, .num 5, .num 6, .num 7, .num 0,
        .num 8] : BoardState).Perm (validBoard 9) ∧
    GOAL_STATE.Perm (validBoard 9) ∧
    (getManhattanDistance
        [.num 1, .num 2, .num 3, .num 4, .num 5, .num 6, .num 7, .num 0,
          .num 8] GOAL_STATE 9 =
      JSNum.finite (manhattanSpec
        [.num 1, .num 2, .num 3, .num 4, .num 5, .num 6, .num 7, .num 0,
          .num 8] GOAL_STATE 3) ∧
    (getManhattanDistance
        [.num 1, .num 2, .num 3, .num 4, .num 5, .num 6, .num 7, .num 0,
          .num 8] GOAL_STATE 9 = JSNum.finite 0 ↔
      ∀ i : ℕ,
        jsGet [.num 1, .num 2, .num 3, .num 4, .num 5, .num 6, .num 7,
          .num 0, .num 8] (i : ℤ) ≠ JSVal.num 0 →
        jsGet [.num 1, .num 2, .num 3, .num 4, .num 5, .num 6, .num 7,
          .num 0, .num 8] (i : ℤ) = jsGet GOAL_STATE (i : ℤ)) ∧
    getManhattanDistance
        [.num 1, .num 2, .num 3, .num 4, .num 5, .num 6, .num 7, .num 0,
          .num 8]
        [.num 1, .num 2, .num 3, .num 4, .num 5, .num 6, .num 7, .num 0,
          .num 8] 9 = JSNum.finite 0) :=
  ⟨by decide, by decide, by decide,
    getManhattanDistance_valid_props _ _ 9 3 (by decide) (by decide) (by decide)⟩

/-! ## The search-node chain invariant

`NodeChain adjacencyMap nd` records that every parent link of `nd` was
produced by the neighbour-generation code of the search loop: the action
stores the moved tile value read from the parent state, the `toIndex` is
the parent's blank position (`indexOf(0)`), the `fromIndex` comes from a
square number adjacent to the blank square in the adjacency table, and
the child state is the parent state with the two writes applied. -/

/-- The root board of a node's parent chain. -/
def nodeRoot : SearchNode → BoardState
  | .start s _ _ _ => s
  | .step _ parent _ _ _ _ => nodeRoot parent

/-- Applying an action sequence to a board with `applyMove`, in order. -/
def applySeq (b : BoardState) (path : List SearchNodeAction) : BoardState :=
  path.foldl (fun s a => applyMove s a.fromIndex a.toIndex) b

/-- Every parent link of the node was produced by the search loop's
neighbour generation. -/
inductive NodeChain (adjacencyMap : PosMap) : SearchNode → Prop where
  | start : ∀ s g h f, NodeChain adjacencyMap (.start s g h f)
  | step : ∀ (st : BoardState) (parent : SearchNode)
      (act : SearchNodeAction) (g h f : ℕ) (emptyIdx : ℕ)
      (movable : List ℤ),
      NodeChain adjacencyMap parent →
      parent.state.findIdx? (· = JSVal.num 0) = some emptyIdx →
      adjacencyMap (getSquareNumberFromIndex emptyIdx) = some movable →
      (act.fromIndex + 1) ∈ movable →
      act.toIndex = (emptyIdx : ℤ) →
      act.tileValue = jsGet parent.state act.fromIndex →
      act.tileValue ≠ JSVal.null →
      st = jsSet (jsSet parent.state (emptyIdx : ℤ) act.tileValue)
        act.fromIndex (.num 0) →
      NodeChain adjacencyMap (.step st parent act g h f)

theorem applySeq_append_one (b : BoardState) (path : List SearchNodeAction)
    (a : SearchNodeAction) :
    applySeq b (path ++ [a]) =
      applyMove (applySeq b path) a.fromIndex a.toIndex := by
  unfold applySeq
  rw [List.foldl_append]
  rfl

/-- The blank slot read through `jsGet` from the `indexOf(0)` result. -/
theorem findIdx?_zero_jsGet {s : BoardState} {e : ℕ}
    (h : s.findIdx? (· = JSVal.num 0) = some e) :
    jsGet s (e : ℤ) = JSVal.num 0 := by
  obtain ⟨hlt, hp, -⟩ := findIdx?_some_facts h
  rw [jsGet_coe_lt s e hlt]
  exact of_decide_eq_true hp

/-- The single generated move coincides with `applyMove` on the parent
state. -/
theorem applyMove_eq_generated {p : BoardState} {e : ℕ} {q : ℤ} {tv : JSVal}
    (hfind : p.findIdx? (· = JSVal.num 0) = some e)
    (htv : tv = jsGet p q) (hnn : tv ≠ JSVal.null) :
    applyMove p q (e : ℤ) = jsSet (jsSet p (e : ℤ) tv) q (.num 0) := by
  unfold applyMove
  rw [if_neg (htv ▸ hnn), if_neg (by rw [findIdx?_zero_jsGet hfind]; simp), ← htv]

/-- Along a chain, replaying the reconstructed path with `applyMove`
reproduces the node's state. -/
theorem nodeChain_applySeq {adjacencyMap : PosMap} {nd : SearchNode}
    (h : NodeChain adjacencyMap nd) :
    applySeq (nodeRoot nd) (reconstructPath nd) = nd.state := by
  induction h with
  | start s g hh f => rfl
  | step st parent act g hh f emptyIdx movable hparent hfind hadj hmem hto
      htv hnn hst ih =>
    show applySeq (nodeRoot parent) (reconstructPath parent ++ [act]) = st
    rw [applySeq_append_one, ih, hto, hst]
    exact applyMove_eq_generated hfind htv hnn

/-- Chain invariant over the open set: every node was generated by the
loop from the root board `b0`. -/
def OpenChainInv (adjacencyMap : PosMap) (b0 : BoardState)
    (openSet : List SearchNode) : Prop :=
  ∀ nd ∈ openSet, NodeChain adjacencyMap nd ∧ nodeRoot nd = b0

theorem expandMoves_chainInv (adjacencyMap : PosMap) (b0 : BoardState)
    (currentNode : SearchNode) (emptyIdx : ℕ) (movable0 : List ℤ)
    (hcur : NodeChain adjacencyMap currentNode)
    (hroot : nodeRoot currentNode = b0)
    (hfind : currentNode.state.findIdx? (· = JSVal.num 0) = some emptyIdx)
    (hadj : adjacencyMap (getSquareNumberFromIndex emptyIdx) = some movable0) :
    ∀ (movable : List ℤ), (∀ sq ∈ movable, sq ∈ movable0) →
    ∀ openAcc closedAcc, OpenChainInv adjacencyMap b0 openAcc →
    OpenChainInv adjacencyMap b0
      (expandMoves currentNode emptyIdx movable openAcc closedAcc).1 := by
  intro movable
  induction movable with
  | nil =>
    intro _ openAcc closedAcc hopen
    simpa [expandMoves] using hopen
  | cons sq rest ih =>
    intro hsub openAcc closedAcc hopen
    have hsubr : ∀ s ∈ rest, s ∈ movable0 := fun s hs => hsub s (by simp [hs])
    rw [expandMoves]
    by_cases hnull : jsGet currentNode.state (getIndexFromSquareNumber sq) =
        JSVal.null
    · rw [if_pos hnull]
      exact ih hsubr openAcc closedAcc hopen
    · rw [if_neg hnull]
      have hpush : ∀ (base : List SearchNode) (closed2 : List (List (Option ℤ))),
          (∀ nd ∈ base, nd ∈ openAcc) →
          OpenChainInv adjacencyMap b0
            (expandMoves currentNode emptyIdx rest
              (base ++ [SearchNode.step
                (jsSet (jsSet currentNode.state (emptyIdx : ℤ)
                    (jsGet currentNode.state (getIndexFromSquareNumber sq)))
                  (getIndexFromSquareNumber sq) (.num 0))
                currentNode
                ⟨jsGet currentNode.state (getIndexFromSquareNumber sq),
                  getIndexFromSquareNumber sq, (emptyIdx : ℤ)⟩
                (currentNode.g + 1)
                (hGoal (jsSet (jsSet currentNode.state (emptyIdx : ℤ)
                    (jsGet currentNode.state (getIndexFromSquareNumber sq)))
                  (getIndexFromSquareNumber sq) (.num 0)))
                (currentNode.g + 1 +
                  hGoal (jsSet (jsSet currentNode.state (emptyIdx : ℤ)
                      (jsGet currentNode.state (getIndexFromSquareNumber sq)))
                    (getIndexFromSquareNumber sq) (.num 0)))])
              closed2).1 := by
        intro base closed2 hbase
        refine ih hsubr _ _ ?_
        intro nd hnd
        rcases List.mem_append.mp hnd with hin | hnew
        · exact hopen nd (hbase nd hin)
        · have hnd2 := List.mem_singleton.mp hnew
          subst hnd2
          refine ⟨?_, hroot⟩
          refine NodeChain.step _ _ _ _ _ _ emptyIdx movable0 hcur hfind hadj
            ?_ rfl rfl hnull rfl
          show getIndexFromSquareNumber sq + 1 ∈ movable0
          have heq : getIndexFromSquareNumber sq + 1 = sq := by
            unfold getIndexFromSquareNumber; ring
          rw [heq]
          exact hsub sq (by simp)
      by_cases hcl : boardKey
          (jsSet (jsSet currentNode.state (emptyIdx : ℤ)
              (jsGet currentNode.state (getIndexFromSquareNumber sq)))
            (getIndexFromSquareNumber sq) (.num 0)) ∈ closedAcc
      · rw [if_pos hcl]
        exact ih hsubr openAcc closedAcc hopen
      · rw [if_neg hcl]
        split
        next x1 existingIdx heq1 =>
          split
          next x2 existingNode hget =>
            dsimp only
            split
            next hf => exact ih hsubr openAcc closedAcc hopen
            next hf =>
              exact hpush (openAcc.eraseIdx existingIdx) _
                (fun nd h => List.eraseIdx_subset openAcc existingIdx h)
          next x2 hget =>
            dsimp only
            exact hpush (openAcc.eraseIdx existingIdx) _
              (fun nd h => List.eraseIdx_subset openAcc existingIdx h)
        next x1 heq1 =>
          dsimp only
          exact hpush openAcc _ (fun nd h => h)

/-- If the search loop returns a path, some chain-generated node carries
the goal state and that path. -/
theorem searchLoop_success (adjacencyMap : PosMap) (b0 : BoardState) :
    ∀ (fuel : ℕ) (openSet : List SearchNode)
      (closed : List (List (Option ℤ))) (path : List SearchNodeAction),
    OpenChainInv adjacencyMap b0 openSet →
    searchLoop adjacencyMap fuel openSet closed = some (some path) →
    ∃ nd : SearchNode, NodeChain adjacencyMap nd ∧ nodeRoot nd = b0 ∧
      nd.state = GOAL_STATE ∧ reconstructPath nd = path := by
  intro fuel
  induction fuel with
  | zero =>
    intro openSet closed path _ h
    exact absurd h (by rw [searchLoop]; simp)
  | succ fuel ih =>
    intro openSet closed path hinv hres
    rw [searchLoop] at hres
    rcases hsort : List.insertionSort (fun a b => a.f ≤ b.f) openSet with
      _ | ⟨currentNode, restOpen⟩
    · rw [hsort] at hres
      simp at hres
    · rw [hsort] at hres
      dsimp only at hres
      have hperm := List.perm_insertionSort (fun a b => a.f ≤ b.f) openSet
      rw [hsort] at hperm
      have hcmem : currentNode ∈ openSet := hperm.subset (by simp)
      have hrest : OpenChainInv adjacencyMap b0 restOpen := by
        intro nd hnd
        exact hinv nd (hperm.subset (by simp [hnd]))
      by_cases hgoal : areArraysEqual currentNode.state GOAL_STATE = true
      · rw [if_pos hgoal] at hres
        obtain ⟨hc1, hc2⟩ := hinv currentNode hcmem
        refine ⟨currentNode, hc1, hc2, (areArraysEqual_iff _ _).mp hgoal, ?_⟩
        injection hres with hres2
        injection hres2
      · rw [if_neg hgoal] at hres
        rcases hfind : currentNode.state.findIdx? (· = JSVal.num 0) with _ | e
        · rw [hfind] at hres
          simp at hres
        · rw [hfind] at hres
          dsimp only at hres
          rcases hadj : adjacencyMap (getSquareNumberFromIndex e) with _ | movable
          · rw [hadj] at hres
            exact ih restOpen closed path hrest hres
          · rw [hadj] at hres
            dsimp only at hres
            obtain ⟨hc1, hc2⟩ := hinv currentNode hcmem
            exact ih _ _ path
              (expandMoves_chainInv adjacencyMap b0 currentNode e movable
                hc1 hc2 hfind hadj movable (fun _ h => h) restOpen closed hrest)
              hres

/-- C2.  On every valid board for which the search returns a non-null
path, replaying that path with `applyMove` (each action's `fromIndex` as
the piece slot, `toIndex` as the empty slot) reproduces `GOAL_STATE`
exactly. -/
theorem performAStarSearch_round_trip (startBoard : BoardState)
    (path : List SearchNodeAction)
    (hv : startBoard.Perm (validBoard 9))
    (h : performAStarSearch startBoard POS_ADJACENCY = some (some path)) :
    applySeq startBoard path = GOAL_STATE := by
  unfold performAStarSearch at h
  by_cases hg : areArraysEqual startBoard GOAL_STATE = true
  · rw [if_pos hg] at h
    injection h with h2
    injection h2 with h3
    rw [← h3]
    exact (areArraysEqual_iff _ _).mp hg
  · rw [if_neg hg] at h
    obtain ⟨nd, hchain, hroot, hgoal, hpath⟩ :=
      searchLoop_success POS_ADJACENCY startBoard SEARCH_FUEL _ _ path
        (by
          intro nd hnd
          have : nd = SearchNode.start startBoard 0 (hGoal startBoard)
              (0 + hGoal startBoard) := by simpa using hnd
          subst this
          exact ⟨NodeChain.start _ _ _ _, rfl⟩)
        h
    rw [← hpath, ← hgoal, ← hroot]
    exact nodeChain_applySeq hchain

/-- Witness for C2 at the one-move board. -/
theorem performAStarSearch_round_trip_witness :
    ([.num 1, .num 2, .num 3, .num 4, .num 5, .num 6, .num 7, .num 0,
        .num 8] : BoardState).Perm (validBoard 9) ∧
    performAStarSearch
      [.num 1, .num 2, .num 3, .num 4, .num 5, .num 6, .num 7, .num 0,
        .num 8] POS_ADJACENCY = some (some [⟨.num 8, 8, 7⟩]) ∧
    applySeq
      [.num 1, .num 2, .num 3, .num 4, .num 5, .num 6, .num 7, .num 0,
        .num 8] [⟨.num 8, 8, 7⟩] = GOAL_STATE :=
  ⟨by decide, by decide,
    performAStarSearch_round_trip _ _ (by decide) (by decide)⟩

/-! ## Inverting a generated move on a valid board -/

theorem jsGet_neg {b : BoardState} {i : ℤ} (h : i < 0) : jsGet b i = .undef := by
  unfold jsGet
  rw [dif_neg]
  rintro ⟨h0, -⟩
  omega

theorem jsGet_toNat_lt (b : BoardState) {i : ℤ} (h0 : 0 ≤ i)
    (h1 : i.toNat < b.length) : jsGet b i = b.get ⟨i.toNat, h1⟩ := by
  unfold jsGet
  rw [dif_pos ⟨h0, h1⟩]

theorem jsGet_toNat_ge {b : BoardState} {i : ℤ} (h1 : b.length ≤ i.toNat)
    (h0 : 0 ≤ i) : jsGet b i = .undef := by
  unfold jsGet
  rw [dif_neg]
  rintro ⟨-, h2⟩
  omega

theorem jsSet_neg {b : BoardState} {i : ℤ} (v : JSVal) (h : i < 0) :
    jsSet b i v = b := by
  unfold jsSet
  rw [if_pos h]

theorem jsSet_toNat_lt (b : BoardState) {i : ℤ} (v : JSVal) (h0 : 0 ≤ i)
    (h1 : i.toNat < b.length) : jsSet b i v = b.set i.toNat v := by
  unfold jsSet
  rw [if_neg (by omega), if_pos h1]

theorem jsSet_toNat_ge (b : BoardState) {i : ℤ} (v : JSVal) (h0 : 0 ≤ i)
    (h1 : b.length ≤ i.toNat) :
    jsSet b i v = b ++ List.replicate (i.toNat - b.length) .undef ++ [v] := by
  unfold jsSet
  rw [if_neg (by omega), if_neg (by omega)]

theorem valid_no_undef {b : BoardState} (hb : b.Perm (validBoard 9)) :
    JSVal.undef ∉ b := by
  intro hmem
  obtain ⟨k, -, hk⟩ := mem_validBoard.mp (hb.mem_iff.mp hmem)
  exact JSVal.noConfusion hk

theorem set_get_self (l : BoardState) (i : ℕ) (hi : i < l.length) :
    l.set i (l.get ⟨i, hi⟩) = l := by
  apply List.ext_get (by simp)
  intro n h1 h2
  simp only [List.get_eq_getElem, List.getElem_set]
  split
  · next h => subst h; rfl
  · rfl

theorem set_set_swap_perm (l : BoardState) (i j : ℕ) (hi : i < l.length)
    (hj : j < l.length) :
    ((l.set i (l.get ⟨j, hj⟩)).set j (l.get ⟨i, hi⟩)).Perm l := by
  rcases eq_or_ne i j with rfl | hij
  · rw [List.set_set, set_get_self]
  · rw [List.perm_iff_count]
    intro a
    have h1 : j < (l.set i (l.get ⟨j, hj⟩)).length := by simpa using hj
    rw [List.count_set _ _ _ _ h1, List.count_set _ _ _ _ hi]
    have h2 : (l.set i (l.get ⟨j, hj⟩))[j] = l[j] := by
      rw [List.getElem_set]
      simp [hij]
    rw [h2]
    simp only [List.get_eq_getElem, beq_iff_eq]
    have hcnt : l[i] = a → 1 ≤ l.count a := by
      intro h
      have : a ∈ l := h ▸ List.getElem_mem hi
      exact List.count_pos_iff_mem.mpr this
    by_cases hia : l[i] = a
    · have h1c := hcnt hia
      by_cases hja : l[j] = a <;> simp [hia, hja] <;> omega
    · by_cases hja : l[j] = a <;> simp [hia, hja] <;> omega

/-- Inverting one generated move: if the resulting state is a valid
board, the parent state is valid too, and the moved-from slot was in
range. -/
theorem move_backward {p st : BoardState} {e : ℕ} {q : ℤ} {tv : JSVal}
    (hfind : p.findIdx? (· = JSVal.num 0) = some e)
    (htv : tv = jsGet p q) (hnn : tv ≠ JSVal.null)
    (hst : st = jsSet (jsSet p (e : ℤ) tv) q (.num 0))
    (hvalid : st.Perm (validBoard 9)) :
    p.Perm (validBoard 9) ∧ 0 ≤ q ∧ q.toNat < p.length := by
  obtain ⟨he, hpe, -⟩ := findIdx?_some_facts hfind
  have hpe2 : p.get ⟨e, he⟩ = JSVal.num 0 := of_decide_eq_true hpe
  rcases lt_or_le q 0 with hq0 | hq0
  · exfalso
    rw [jsGet_neg hq0] at htv
    rw [jsSet_coe_lt p e tv he, jsSet_neg _ hq0, htv] at hst
    apply valid_no_undef hvalid
    rw [hst]
    have hlen : e < (p.set e JSVal.undef).length := by simpa using he
    have hgs : (p.set e JSVal.undef).get ⟨e, hlen⟩ = JSVal.undef := by
      simp only [List.get_eq_getElem, List.getElem_set]
      simp
    exact List.mem_iff_get.mpr ⟨⟨e, hlen⟩, hgs⟩
  · rcases lt_or_le q.toNat p.length with hqr | hqr
    · rw [jsGet_toNat_lt p hq0 hqr] at htv
      rw [jsSet_coe_lt p e tv he,
        jsSet_toNat_lt _ _ hq0 (by simpa using hqr)] at hst
      have hswap : st.Perm p := by
        rw [hst, htv, ← hpe2]
        exact set_set_swap_perm p e q.toNat he hqr
      exact ⟨(hswap.symm.trans hvalid), hq0, hqr⟩
    · exfalso
      rw [jsGet_toNat_ge hqr hq0] at htv
      rw [jsSet_coe_lt p e tv he,
        jsSet_toNat_ge _ _ hq0 (by simpa using hqr), htv] at hst
      apply valid_no_undef hvalid
      rw [hst]
      have hin : JSVal.undef ∈ p.set e JSVal.undef := by
        have hlen : e < (p.set e JSVal.undef).length := by simpa using he
        have hgs : (p.set e JSVal.undef).get ⟨e, hlen⟩ = JSVal.undef := by
          simp only [List.get_eq_getElem, List.getElem_set]
          simp
        exact List.mem_iff_get.mpr ⟨⟨e, hlen⟩, hgs⟩
      exact List.mem_append_left _ (List.mem_append_left _ hin)

/-! ## Chains of generated moves and the action-sequence invariants -/

/-- A sequence of actions produced by successive neighbour generations of
the search loop, carrying the board from `b` to `c`. -/
inductive ChainFrom (adjacencyMap : PosMap) :
    BoardState → List SearchNodeAction → BoardState → Prop where
  | nil : ∀ b, ChainFrom adjacencyMap b [] b
  | snoc : ∀ (b : BoardState) (path : List SearchNodeAction)
      (mid : BoardState) (act : SearchNodeAction) (c : BoardState)
      (e : ℕ) (movable : List ℤ),
      ChainFrom adjacencyMap b path mid →
      mid.findIdx? (· = JSVal.num 0) = some e →
      adjacencyMap (getSquareNumberFromIndex e) = some movable →
      (act.fromIndex + 1) ∈ movable →
      act.toIndex = (e : ℤ) →
      act.tileValue = jsGet mid act.fromIndex →
      act.tileValue ≠ JSVal.null →
      c = jsSet (jsSet mid (e : ℤ) act.tileValue) act.fromIndex (.num 0) →
      ChainFrom adjacencyMap b (path ++ [act]) c

theorem nodeChain_chainFrom {adjacencyMap : PosMap} {nd : SearchNode}
    (h : NodeChain adjacencyMap nd) :
    ChainFrom adjacencyMap (nodeRoot nd) (reconstructPath nd) nd.state := by
  induction h with
  | start s g hh f => exact ChainFrom.nil s
  | step st parent act g hh f emptyIdx movable hparent hfind hadj hmem hto
      htv hnn hst ih =>
    exact ChainFrom.snoc _ _ _ _ _ emptyIdx movable ih hfind hadj hmem hto
      htv hnn hst

theorem chainFrom_applySeq {adjacencyMap : PosMap} {b : BoardState}
    {path : List SearchNodeAction} {c : BoardState}
    (h : ChainFrom adjacencyMap b path c) : applySeq b path = c := by
  induction h with
  | nil => rfl
  | snoc path mid act c e movable hch hfind hadj hmem hto htv hnn hc ih =>
    rw [applySeq_append_one, ih, hto, hc]
    exact applyMove_eq_generated hfind htv hnn

theorem chainFrom_nil_eq {adjacencyMap : PosMap} {b c : BoardState}
    (h : ChainFrom adjacencyMap b [] c) : b = c := by
  have h2 : ∀ (path : List SearchNodeAction), ChainFrom adjacencyMap b path c →
      path = [] → b = c := by
    intro path hch
    induction hch with
    | nil => intro _; rfl
    | snoc path mid act c e movable hch hfind hadj hmem hto htv hnn hc ih =>
      intro hcon
      exact absurd hcon (by simp)
  exact h2 [] h rfl

/-- All the action-sequence invariants of a generated chain whose final
state is a valid board: the root is valid; the first action's `toIndex`
is the blank's index in the root; consecutive actions hand the blank from
`fromIndex` to the next `toIndex`; each action's `tileValue` is the value
at its `fromIndex` in the board reached so far; each action's move is
sanctioned by the adjacency table; and the last action's `fromIndex` is
the blank's slot in the final state. -/
theorem chainFrom_props {adjacencyMap : PosMap} :
    ∀ {b : BoardState} {path : List SearchNodeAction} {c : BoardState},
    ChainFrom adjacencyMap b path c → c.Perm (validBoard 9) →
    b.Perm (validBoard 9) ∧
    (∀ (a : SearchNodeAction), path.head? = some a →
      ∃ e : ℕ, b.findIdx? (· = JSVal.num 0) = some e ∧ a.toIndex = (e : ℤ)) ∧
    (∀ (k : ℕ) (ak ak1 : SearchNodeAction), path[k]? = some ak →
      path[k+1]? = some ak1 → ak1.toIndex = ak.fromIndex) ∧
    (∀ (k : ℕ) (ak : SearchNodeAction), path[k]? = some ak →
      ak.tileValue = jsGet (applySeq b (path.take k)) ak.fromIndex) ∧
    (∀ (k : ℕ) (ak : SearchNodeAction), path[k]? = some ak →
      ∃ movable, adjacencyMap (getSquareNumberFromIndex ak.toIndex.toNat) =
        some movable ∧ (ak.fromIndex + 1) ∈ movable) ∧
    (∀ (a : SearchNodeAction), path.getLast? = some a →
      c.findIdx? (· = JSVal.num 0) = some a.fromIndex.toNat ∧
        0 ≤ a.fromIndex) := by
  intro b path c hch
  induction hch with
  | nil =>
    intro hv
    refine ⟨hv, ?_, ?_, ?_, ?_, ?_⟩ <;> intro a <;> simp
  | snoc path mid act c e movable hch hfind hadj hmem hto htv hnn hc ih =>
    intro hvc
    obtain ⟨hvmid, hq0, hqlt⟩ := move_backward hfind htv hnn hc hvc
    obtain ⟨hvb, ihHead, ihPair, ihTile, ihAdj, ihLast⟩ := ih hvmid
    obtain ⟨he, hpe, -⟩ := findIdx?_some_facts hfind
    -- the final state as an in-range double set
    have hcset : c = (mid.set e act.tileValue).set act.fromIndex.toNat
        (JSVal.num 0) := by
      rw [hc, jsSet_coe_lt mid e act.tileValue he,
        jsSet_toNat_lt _ _ hq0 (by simpa using hqlt)]
    have hclen : c.length = mid.length := by rw [hcset]; simp
    refine ⟨hvb, ?_, ?_, ?_, ?_, ?_⟩
    · -- head of the extended path
      intro a ha
      rcases hpath : path with _ | ⟨p0, prest⟩
      · subst hpath
        simp only [List.nil_append, List.head?_cons, Option.some.injEq] at ha
        subst ha
        have hbm := chainFrom_nil_eq hch
        exact ⟨e, hbm ▸ hfind, hto⟩
      · subst hpath
        simp only [List.cons_append, List.head?_cons, Option.some.injEq] at ha
        obtain rfl := ha
        exact ihHead p0 (by simp)
    · -- consecutive pairs
      intro k ak ak1 hak hak1
      rcases lt_or_le (k + 1) path.length with hlt | hge
      · rw [List.getElem?_append_left (by omega)] at hak
        rw [List.getElem?_append_left hlt] at hak1
        exact ihPair k ak ak1 hak hak1
      · rcases lt_or_le k path.length with hklt | hkge
        · have hk1 : k + 1 = path.length := by omega
          rw [List.getElem?_append_left hklt] at hak
          rw [hk1, List.getElem?_concat_length] at hak1
          injection hak1 with hak1
          subst hak1
          have hlast : path.getLast? = some ak := by
            rw [List.getLast?_eq_getElem?]
            have : path.length - 1 = k := by omega
            rw [this, hak]
          obtain ⟨hmid0, hfr0⟩ := ihLast ak hlast
          rw [hfind] at hmid0
          injection hmid0 with hmid0
          rw [hto, hmid0]
          omega
        · exfalso
          rw [List.getElem?_eq_none (by simp; omega)] at hak1
          exact Option.noConfusion hak1
    · -- tile values
      intro k ak hak
      rcases lt_or_le k path.length with hklt | hkge
      · rw [List.getElem?_append_left hklt] at hak
        rw [List.take_append_of_le_length (by omega)]
        exact ihTile k ak hak
      · have hkeq : k = path.length := by
          by_contra hne
          rw [List.getElem?_eq_none (by simp; omega)] at hak
          exact Option.noConfusion hak
        subst hkeq
        rw [List.getElem?_concat_length] at hak
        injection hak with hak
        subst hak
        rw [List.take_left, chainFrom_applySeq hch]
        exact htv
    · -- adjacency sanction
      intro k ak hak
      rcases lt_or_le k path.length with hklt | hkge
      · rw [List.getElem?_append_left hklt] at hak
        exact ihAdj k ak hak
      · have hkeq : k = path.length := by
          by_contra hne
          rw [List.getElem?_eq_none (by simp; omega)] at hak
          exact Option.noConfusion hak
        subst hkeq
        rw [List.getElem?_concat_length] at hak
        injection hak with hak
        subst hak
        refine ⟨movable, ?_, hmem⟩
        rw [hto]
        simpa using hadj
    · -- the blank of the final state sits at the last fromIndex
      intro a ha
      rw [List.getLast?_concat] at ha
      injection ha with ha
      subst ha
      refine ⟨?_, hq0⟩
      have hlt2 : act.fromIndex.toNat < c.length := by omega
      have hget : c.get ⟨act.fromIndex.toNat, hlt2⟩ = JSVal.num 0 := by
        simp only [hcset, List.get_eq_getElem, List.getElem_set]
        simp
      exact findIdx?_of_nodup_get (valid_nodup hvc) hlt2 hget

/-- C10.  Invariants of every action sequence returned by
`performAStarSearch`: the first action's `toIndex` is the blank's index
in the start board; every later action's `toIndex` is the previous
action's `fromIndex`; each action's `tileValue` is the value at its
`fromIndex` in the board obtained by applying the preceding actions; and
each action's `fromIndex`/`toIndex` pair is sanctioned by the adjacency
table (the from-square is listed as adjacent to the blank's square). -/
theorem performAStarSearch_path_invariants (startBoard : BoardState)
    (adjacencyMap : PosMap) (path : List SearchNodeAction)
    (h : performAStarSearch startBoard adjacencyMap = some (some path)) :
    (∀ (a : SearchNodeAction), path.head? = some a →
      ∃ e : ℕ, startBoard.findIdx? (· = JSVal.num 0) = some e ∧
        a.toIndex = (e : ℤ)) ∧
    (∀ (k : ℕ) (ak ak1 : SearchNodeAction), path[k]? = some ak →
      path[k+1]? = some ak1 → ak1.toIndex = ak.fromIndex) ∧
    (∀ (k : ℕ) (ak : SearchNodeAction), path[k]? = some ak →
      ak.tileValue = jsGet (applySeq startBoard (path.take k)) ak.fromIndex) ∧
    (∀ (k : ℕ) (ak : SearchNodeAction), path[k]? = some ak →
      ∃ movable, adjacencyMap (getSquareNumberFromIndex ak.toIndex.toNat) =
        some movable ∧ (ak.fromIndex + 1) ∈ movable) := by
  unfold performAStarSearch at h
  by_cases hg : areArraysEqual startBoard GOAL_STATE = true
  · rw [if_pos hg] at h
    injection h with h2
    injection h2 with h3
    refine ⟨?_, ?_, ?_, ?_⟩ <;> intro a <;> rw [← h3] <;> simp
  · rw [if_neg hg] at h
    obtain ⟨nd, hchain, hroot, hgoal, hpath⟩ :=
      searchLoop_success adjacencyMap startBoard SEARCH_FUEL _ _ path
        (by
          intro nd hnd
          have : nd = SearchNode.start startBoard 0 (hGoal startBoard)
              (0 + hGoal startBoard) := by simpa using hnd
          subst this
          exact ⟨NodeChain.start _ _ _ _, rfl⟩)
        h
    have hcf := nodeChain_chainFrom hchain
    rw [hroot, hpath, hgoal] at hcf
    obtain ⟨-, hHead, hPair, hTile, hAdj, -⟩ :=
      chainFrom_props hcf GOAL_STATE_perm_validBoard
    exact ⟨hHead, hPair, hTile, hAdj⟩

/-- Witness for C10 at the one-move board. -/
theorem performAStarSearch_path_invariants_witness :
    performAStarSearch
      [.num 1, .num 2, .num 3, .num 4, .num 5, .num 6, .num 7, .num 0,
        .num 8] POS_ADJACENCY = some (some [⟨.num 8, 8, 7⟩]) ∧
    ((∀ (a : SearchNodeAction),
        ([⟨.num 8, 8, 7⟩] : List SearchNodeAction).head? = some a →
        ∃ e : ℕ,
          ([.num 1, .num 2, .num 3, .num 4, .num 5, .num 6, .num 7, .num 0,
            .num 8] : BoardState).findIdx? (· = JSVal.num 0) = some e ∧
          a.toIndex = (e : ℤ)) ∧
    (∀ (k : ℕ) (ak ak1 : SearchNodeAction),
      ([⟨.num 8, 8, 7⟩] : List SearchNodeAction)[k]? = some ak →
      ([⟨.num 8, 8, 7⟩] : List SearchNodeAction)[k+1]? = some ak1 →
      ak1.toIndex = ak.fromIndex) ∧
    (∀ (k : ℕ) (ak : SearchNodeAction),
      ([⟨.num 8, 8, 7⟩] : List SearchNodeAction)[k]? = some ak →
      ak.tileValue = jsGet (applySeq
        [.num 1, .num 2, .num 3, .num 4, .num 5, .num 6, .num 7, .num 0,
          .num 8]
        (([⟨.num 8, 8, 7⟩] : List SearchNodeAction).take k)) ak.fromIndex) ∧
    (∀ (k : ℕ) (ak : SearchNodeAction),
      ([⟨.num 8, 8, 7⟩] : List SearchNodeAction)[k]? = some ak →
      ∃ movable,
        POS_ADJACENCY (getSquareNumberFromIndex ak.toIndex.toNat) =
          some movable ∧ (ak.fromIndex + 1) ∈ movable)) :=
  ⟨by decide, performAStarSearch_path_invariants _ _ _ (by decide)⟩

/-! ## The inversion-parity invariant of the 3×3 puzzle

The number of inversions of the tile sequence (blank removed), taken
mod 2, is preserved by every legal move: a horizontal slide leaves the
tile sequence unchanged, a vertical slide moves one tile across exactly
two others.  `GOAL_STATE` has parity 0, so boards of parity 1 can never
reach it. -/

/-- The tile values of a board in reading order, the blank (and any
non-number garbage) removed. -/
def tileInts (s : BoardState) : List ℤ :=
  s.filterMap fun v => match v with
    | .num n => if n = 0 then none else some n
    | _ => none

/-- Number of inversions (pairs appearing in decreasing order). -/
def countInv : List ℤ → ℕ
  | [] => 0
  | x :: xs => xs.countP (fun y => decide (y < x)) + countInv xs

/-- Inversions between the elements of `l` and those of `r`. -/
def crossInv (l r : List ℤ) : ℕ :=
  (l.map fun x => r.countP (fun y => decide (y < x))).sum

/-- The permutation-parity invariant of a board. -/
def invParity (s : BoardState) : ℕ := countInv (tileInts s) % 2

theorem countInv_nil : countInv [] = 0 := rfl

theorem countInv_cons (x : ℤ) (xs : List ℤ) :
    countInv (x :: xs) =
      xs.countP (fun y => decide (y < x)) + countInv xs := rfl

theorem countInv_append (l r : List ℤ) :
    countInv (l ++ r) = countInv l + countInv r + crossInv l r := by
  induction l with
  | nil => simp [countInv_nil, crossInv]
  | cons x xs ih =>
    rw [List.cons_append, countInv_cons, List.countP_append, ih,
      countInv_cons]
    unfold crossInv
    simp only [List.map_cons, List.sum_cons]
    omega

theorem crossInv_perm_right (l : List ℤ) {r1 r2 : List ℤ} (h : r1.Perm r2) :
    crossInv l r1 = crossInv l r2 := by
  unfold crossInv
  congr 1
  apply List.map_congr_left
  intro x _
  exact h.countP_eq _

theorem crossInv_cons_right (l : List ℤ) (x : ℤ) (r : List ℤ) :
    crossInv l (x :: r) =
      l.countP (fun a => decide (x < a)) + crossInv l r := by
  induction l with
  | nil => simp [crossInv]
  | cons a as ih =>
    unfold crossInv at ih ⊢
    simp only [List.map_cons, List.sum_cons]
    rw [List.countP_cons (fun y => decide (y < a)) x r,
      List.countP_cons (fun y => decide (x < y)) a as, ih]
    omega

theorem countP_lt_add_gt (x : ℤ) :
    ∀ (m : List ℤ), (∀ y ∈ m, y ≠ x) →
    m.countP (fun y => decide (y < x)) + m.countP (fun y => decide (x < y)) =
      m.length := by
  intro m
  induction m with
  | nil => simp
  | cons a as ih =>
    intro hm
    have ha : a ≠ x := hm a (by simp)
    have ih2 := ih fun y hy => hm y (by simp [hy])
    rw [List.countP_cons (fun y => decide (y < x)) a as,
      List.countP_cons (fun y => decide (x < y)) a as]
    simp only [List.length_cons]
    rcases lt_trichotomy a x with h | h | h
    · have d1 : decide (a < x) = true := by simpa using h
      have d2 : decide (x < a) = false := by
        simpa using not_lt.mpr h.le
      rw [d1, d2]
      simp
      omega
    · exact absurd h ha
    · have d1 : decide (a < x) = false := by
        simpa using not_lt.mpr h.le
      have d2 : decide (x < a) = true := by simpa using h
      rw [d1, d2]
      simp
      omega

theorem countInv_middle (l m r : List ℤ) (x : ℤ) (hm : ∀ y ∈ m, y ≠ x) :
    (countInv (l ++ x :: (m ++ r)) + m.length) % 2 =
      countInv (l ++ (m ++ x :: r)) % 2 := by
  have hA : countInv (l ++ x :: (m ++ r)) =
      countInv l + countInv (x :: (m ++ r)) + crossInv l (x :: (m ++ r)) :=
    countInv_append _ _
  have hA2 : countInv (x :: (m ++ r)) =
      m.countP (fun y => decide (y < x)) + r.countP (fun y => decide (y < x))
        + countInv m + countInv r + crossInv m r := by
    show (m ++ r).countP _ + countInv (m ++ r) = _
    rw [List.countP_append, countInv_append]
    omega
  have hB : countInv (l ++ (m ++ x :: r)) =
      countInv l + countInv (m ++ x :: r) + crossInv l (m ++ x :: r) :=
    countInv_append _ _
  have hB2 : countInv (m ++ x :: r) =
      countInv m + r.countP (fun y => decide (y < x)) + countInv r
        + m.countP (fun a => decide (x < a)) + crossInv m r := by
    rw [countInv_append, crossInv_cons_right]
    show countInv m + ((r.countP _) + countInv r) + _ = _
    omega
  have hperm : crossInv l (x :: (m ++ r)) = crossInv l (m ++ x :: r) :=
    crossInv_perm_right l List.perm_middle.symm
  have hsum := countP_lt_add_gt x m hm
  omega

theorem tileInts_append (a b : BoardState) :
    tileInts (a ++ b) = tileInts a ++ tileInts b :=
  List.filterMap_append a b _

theorem tileInts_cons_num_ne (k : ℤ) (hk : k ≠ 0) (t : BoardState) :
    tileInts (JSVal.num k :: t) = k :: tileInts t := by
  unfold tileInts
  rw [List.filterMap_cons]
  simp [hk]

theorem tileInts_cons_num_zero (t : BoardState) :
    tileInts (JSVal.num 0 :: t) = tileInts t := by
  unfold tileInts
  rw [List.filterMap_cons]
  simp

/-- Parity is unchanged when a nonzero tile trades places with the blank
across a block with an even number of tiles. -/
theorem invParity_swap (l m r : BoardState) (ka : ℤ) (hka : ka ≠ 0)
    (hm2 : (tileInts m).length % 2 = 0)
    (hdist : ∀ y ∈ tileInts m, y ≠ ka) :
    invParity (l ++ JSVal.num ka :: (m ++ JSVal.num 0 :: r)) =
      invParity (l ++ JSVal.num 0 :: (m ++ JSVal.num ka :: r)) := by
  unfold invParity
  have h1 : tileInts (l ++ JSVal.num ka :: (m ++ JSVal.num 0 :: r)) =
      tileInts l ++ ka :: (tileInts m ++ tileInts r) := by
    rw [tileInts_append, tileInts_cons_num_ne ka hka, tileInts_append,
      tileInts_cons_num_zero]
  have h2 : tileInts (l ++ JSVal.num 0 :: (m ++ JSVal.num ka :: r)) =
      tileInts l ++ (tileInts m ++ ka :: tileInts r) := by
    rw [tileInts_append, tileInts_cons_num_zero, tileInts_append,
      tileInts_cons_num_ne ka hka]
  rw [h1, h2]
  have := countInv_middle (tileInts l) (tileInts m) (tileInts r) ka hdist
  omega

/-! ## Legal moves and reachability -/

/-- The boards reachable from `s` in one legal move under
`POS_ADJACENCY`: exactly the neighbour states the search loop generates
when it expands `s`. -/
def legalNextStates (s : BoardState) : List BoardState :=
  match s.findIdx? (· = JSVal.num 0) with
  | none => []
  | some emptyIdx =>
    match POS_ADJACENCY (getSquareNumberFromIndex emptyIdx) with
    | none => []
    | some movable => movable.filterMap fun sq =>
        let pieceToMoveIndex := getIndexFromSquareNumber sq
        let tileValue := jsGet s pieceToMoveIndex
        if tileValue = JSVal.null then none
        else some (jsSet (jsSet s (emptyIdx : ℤ) tileValue)
          pieceToMoveIndex (.num 0))

/-- `ReachableIn k b c`: board `c` is reachable from board `b` in exactly
`k` legal moves. -/
def ReachableIn : ℕ → BoardState → BoardState → Prop
  | 0, b, c => b = c
  | k + 1, b, c => ∃ m ∈ legalNextStates b, ReachableIn k m c

instance : ∀ (k : ℕ) (b c : BoardState), Decidable (ReachableIn k b c)
  | 0, b, c => by unfold ReachableIn; infer_instance
  | k + 1, b, c => by
      unfold ReachableIn
      have : ∀ m, Decidable (ReachableIn k m c) := fun m =>
        instDecidableReachableIn k m c
      exact List.decidableBEx _ _

/-! ### Decomposing a board around two slots -/

theorem take_set_of_le (l : BoardState) (k n : ℕ) (a : JSVal) (h : k ≤ n) :
    (l.set n a).take k = l.take k := by
  rw [List.set_take]
  apply List.set_eq_of_length_le
  simp
  omega

theorem decomp_two (s : BoardState) (i j : ℕ) (hij : i < j)
    (hj : j < s.length) :
    s = s.take i ++ s.get ⟨i, hij.trans hj⟩ ::
      ((s.drop (i+1)).take (j - (i+1)) ++ s.get ⟨j, hj⟩ :: s.drop (j+1)) := by
  have h1 : s.take i ++ s.drop i = s := List.take_append_drop i s
  have h2 : s.drop i = s.get ⟨i, hij.trans hj⟩ :: s.drop (i + 1) := by
    rw [List.drop_eq_getElem_cons (hij.trans hj)]
    rfl
  have h3 : s.drop (i + 1) =
      (s.drop (i+1)).take (j - (i+1)) ++ (s.drop (i+1)).drop (j - (i+1)) :=
    (List.take_append_drop _ _).symm
  have h4 : (s.drop (i+1)).drop (j - (i+1)) = s.drop j := by
    rw [List.drop_drop]
    congr 1
    omega
  have h5 : s.drop j = s.get ⟨j, hj⟩ :: s.drop (j + 1) := by
    rw [List.drop_eq_getElem_cons hj]
    rfl
  conv_lhs => rw [← h1, h2, h3, h4, h5]

/-- The double write of a generated move, decomposed around the two
slots (`i < j` orientation). -/
theorem set_set_decomp (s : BoardState) (i j : ℕ) (hij : i < j)
    (hj : j < s.length) (u v : JSVal) :
    (s.set i u).set j v = s.take i ++ u ::
      ((s.drop (i+1)).take (j - (i+1)) ++ v :: s.drop (j+1)) := by
  have hlen : j < ((s.set i u).set j v).length := by simpa using hj
  have hd := decomp_two ((s.set i u).set j v) i j hij (by simpa using hj)
  rw [hd]
  congr 1
  · rw [take_set_of_le _ _ _ _ hij.le, take_set_of_le _ _ _ _ (le_refl i)]
  · congr 1
    · simp only [List.get_eq_getElem, List.getElem_set]
      simp [Nat.ne_of_gt hij]
    · congr 1
      · rw [List.drop_set, if_neg (by omega), List.drop_set, if_pos (by omega)]
        rw [take_set_of_le _ _ _ _ (by omega)]
      · congr 1
        · simp only [List.get_eq_getElem, List.getElem_set]
          simp
        · rw [List.drop_set, if_pos (by omega), List.drop_set,
            if_pos (by omega)]

theorem mem_of_mem_tileInts {m : BoardState} {y : ℤ}
    (h : y ∈ tileInts m) : JSVal.num y ∈ m := by
  unfold tileInts at h
  rw [List.mem_filterMap] at h
  obtain ⟨a, ha, hfa⟩ := h
  rcases a with n | _ | _
  · by_cases hn : n = 0
    · rw [hn] at hfa
      simp at hfa
    · simp only [hn, if_neg hn] at hfa
      injection hfa with hfa
      exact hfa ▸ ha
  · simp at hfa
  · simp at hfa

theorem tileInts_length_of_nums {m : BoardState}
    (h : ∀ y ∈ m, ∃ t : ℤ, t ≠ 0 ∧ y = JSVal.num t) :
    (tileInts m).length = m.length := by
  induction m with
  | nil => rfl
  | cons a as ih =>
    obtain ⟨t, ht0, hat⟩ := h a (by simp)
    subst hat
    rw [tileInts_cons_num_ne t ht0]
    simp only [List.length_cons]
    rw [ih fun y hy => h y (by simp [hy])]

theorem count_zero_validBoard : List.count (JSVal.num 0) (validBoard 9) = 1 := by
  decide

/-- A generated move on a valid board preserves the inversion parity and
validity. -/
theorem move_parity_valid {s : BoardState} (hv : s.Perm (validBoard 9))
    (e q : ℕ) (he : e < s.length) (hq : q < s.length) (hne : e ≠ q)
    (hdiff : q = e + 1 ∨ e = q + 1 ∨ q = e + 3 ∨ e = q + 3)
    (hblank : s.get ⟨e, he⟩ = JSVal.num 0) :
    invParity ((s.set e (s.get ⟨q, hq⟩)).set q (JSVal.num 0)) = invParity s ∧
    ((s.set e (s.get ⟨q, hq⟩)).set q (JSVal.num 0)).Perm (validBoard 9) := by
  have hlen : s.length = 9 := valid_length hv
  have hnd : s.Nodup := valid_nodup hv
  obtain ⟨k, hk9, hgetq⟩ := valid_get_num hv hq
  have hk0 : (k : ℤ) ≠ 0 := by
    intro hc
    apply hne
    have : s.get ⟨e, he⟩ = s.get ⟨q, hq⟩ := by rw [hblank, hgetq, hc]
    have h2 := (List.Nodup.get_inj_iff hnd).mp this
    simpa using h2
  have hcnt0 : List.count (JSVal.num 0) s = 1 := by
    rw [hv.count_eq]
    exact count_zero_validBoard
  have hcntk : List.count (JSVal.num k) s ≤ 1 :=
    List.nodup_iff_count_le_one.mp hnd _
  have hperm : ((s.set e (s.get ⟨q, hq⟩)).set q (JSVal.num 0)).Perm s := by
    have : JSVal.num 0 = s.get ⟨e, he⟩ := hblank.symm
    rw [this]
    exact set_set_swap_perm s e q he hq
  refine ⟨?_, hperm.trans hv⟩
  rcases lt_or_gt_of_ne hne with helt | hqlt
  · -- e < q : blank on the left of the moved tile
    have hdecs := decomp_two s e q helt hq
    have hdecc := set_set_decomp s e q helt hq (s.get ⟨q, hq⟩) (JSVal.num 0)
    rw [hblank, hgetq] at hdecs
    rw [hgetq] at hdecc
    set l := s.take e with hl
    set m := (s.drop (e+1)).take (q - (e+1)) with hmdef
    set r := s.drop (q+1) with hr
    have hmlen : m.length = q - (e + 1) := by
      rw [hmdef]
      simp only [List.length_take, List.length_drop]
      omega
    have hmem2 : ∀ y ∈ m, y ∈ s := fun y hy =>
      List.mem_of_mem_drop (List.mem_of_mem_take hy)
    have hcnt0d := hcnt0
    rw [hdecs] at hcnt0d
    simp [List.count_append, List.count_cons, hk0] at hcnt0d
    have hm0 : ∀ y ∈ m, y ≠ JSVal.num 0 := by
      intro y hy hy0
      have h1 : 0 < List.count (JSVal.num 0) m :=
        List.count_pos_iff_mem.mpr (hy0 ▸ hy)
      omega
    have hmnums : ∀ y ∈ m, ∃ t : ℤ, t ≠ 0 ∧ y = JSVal.num t := by
      intro y hy
      obtain ⟨t, -, hyt⟩ := mem_validBoard.mp (hv.mem_iff.mp (hmem2 y hy))
      refine ⟨t, ?_, hyt⟩
      intro ht0
      exact hm0 y hy (by rw [hyt, ht0])
    have hm2 : (tileInts m).length % 2 = 0 := by
      rw [tileInts_length_of_nums hmnums, hmlen]
      rcases hdiff with h | h | h | h <;> omega
    have hdistm : ∀ y ∈ tileInts m, y ≠ (k : ℤ) := by
      intro y hy hyk
      have hmemk : JSVal.num (k : ℤ) ∈ m := by
        rw [← hyk]
        exact mem_of_mem_tileInts hy
      have hcntkd := hcntk
      rw [hdecs] at hcntkd
      simp [List.count_append, List.count_cons, hk0] at hcntkd
      have h1 : 0 < List.count (JSVal.num (k : ℤ)) m :=
        List.count_pos_iff_mem.mpr hmemk
      omega
    calc invParity ((s.set e (s.get ⟨q, hq⟩)).set q (JSVal.num 0))
        = invParity (l ++ JSVal.num k :: (m ++ JSVal.num 0 :: r)) := by
          rw [hgetq, hdecc]
      _ = invParity (l ++ JSVal.num 0 :: (m ++ JSVal.num k :: r)) :=
          invParity_swap l m r k hk0 hm2 hdistm
      _ = invParity s := by rw [← hdecs]
  · -- q < e : blank on the right of the moved tile
    have hqe : q < e := hqlt
    have hdecs := decomp_two s q e hqe he
    have hcomm : (s.set e (s.get ⟨q, hq⟩)).set q (JSVal.num 0) =
        (s.set q (JSVal.num 0)).set e (s.get ⟨q, hq⟩) :=
      List.set_comm _ _ s hne
    have hdecc := set_set_decomp s q e hqe he (JSVal.num 0) (s.get ⟨q, hq⟩)
    rw [hblank, hgetq] at hdecs
    rw [hgetq] at hdecc
    set l := s.take q with hl
    set m := (s.drop (q+1)).take (e - (q+1)) with hmdef
    set r := s.drop (e+1) with hr
    have hmlen : m.length = e - (q + 1) := by
      rw [hmdef]
      simp only [List.length_take, List.length_drop]
      omega
    have hmem2 : ∀ y ∈ m, y ∈ s := fun y hy =>
      List.mem_of_mem_drop (List.mem_of_mem_take hy)
    have hcnt0d := hcnt0
    rw [hdecs] at hcnt0d
    simp [List.count_append, List.count_cons, hk0] at hcnt0d
    have hm0 : ∀ y ∈ m, y ≠ JSVal.num 0 := by
      intro y hy hy0
      have h1 : 0 < List.count (JSVal.num 0) m :=
        List.count_pos_iff_mem.mpr (hy0 ▸ hy)
      omega
    have hmnums : ∀ y ∈ m, ∃ t : ℤ, t ≠ 0 ∧ y = JSVal.num t := by
      intro y hy
      obtain ⟨t, -, hyt⟩ := mem_validBoard.mp (hv.mem_iff.mp (hmem2 y hy))
      refine ⟨t, ?_, hyt⟩
      intro ht0
      exact hm0 y hy (by rw [hyt, ht0])
    have hm2 : (tileInts m).length % 2 = 0 := by
      rw [tileInts_length_of_nums hmnums, hmlen]
      rcases hdiff with h | h | h | h <;> omega
    have hdistm : ∀ y ∈ tileInts m, y ≠ (k : ℤ) := by
      intro y hy hyk
      have hmemk : JSVal.num (k : ℤ) ∈ m := by
        rw [← hyk]
        exact mem_of_mem_tileInts hy
      have hcntkd := hcntk
      rw [hdecs] at hcntkd
      simp [List.count_append, List.count_cons, hk0] at hcntkd
      have h1 : 0 < List.count (JSVal.num (k : ℤ)) m :=
        List.count_pos_iff_mem.mpr hmemk
      omega
    calc invParity ((s.set e (s.get ⟨q, hq⟩)).set q (JSVal.num 0))
        = invParity (l ++ JSVal.num 0 :: (m ++ JSVal.num k :: r)) := by
          rw [hcomm, hgetq, hdecc]
      _ = invParity (l ++ JSVal.num k :: (m ++ JSVal.num 0 :: r)) :=
          (invParity_swap l m r k hk0 hm2 hdistm).symm
      _ = invParity s := by rw [← hdecs]

/-- Concrete facts about `POS_ADJACENCY`: every blank square `e + 1` with
`e < 9` has an adjacency list, and each listed square is in range, is
not the blank square, and sits one or three slots away (same-row
neighbour or vertical neighbour). -/
theorem POS_ADJACENCY_facts : ∀ e : ℕ, e < 9 →
    ∃ movable, POS_ADJACENCY (getSquareNumberFromIndex e) = some movable ∧
      ∀ sq ∈ movable, 1 ≤ sq ∧ sq ≤ 9 ∧ sq ≠ (e : ℤ) + 1 ∧
        (sq - 1 = (e : ℤ) + 1 ∨ sq - 1 = (e : ℤ) - 1 ∨
         sq - 1 = (e : ℤ) + 3 ∨ sq - 1 = (e : ℤ) - 3) := by
  intro e he
  interval_cases e <;> exact ⟨_, rfl, by decide⟩

/-- One legal move on a valid board preserves the inversion parity and
validity. -/
theorem legalNext_parity {s c : BoardState} (hv : s.Perm (validBoard 9))
    (hc : c ∈ legalNextStates s) :
    invParity c = invParity s ∧ c.Perm (validBoard 9) := by
  have hlen : s.length = 9 := valid_length hv
  unfold legalNextStates at hc
  rcases hfind : s.findIdx? (· = JSVal.num 0) with _ | e
  · rw [hfind] at hc
    simp at hc
  · rw [hfind] at hc
    dsimp only at hc
    obtain ⟨hee, hpe, -⟩ := findIdx?_some_facts hfind
    have he9 : e < 9 := hlen ▸ hee
    obtain ⟨movable, hmov, hfacts⟩ := POS_ADJACENCY_facts e he9
    rw [hmov] at hc
    dsimp only at hc
    rw [List.mem_filterMap] at hc
    obtain ⟨sq, hsq, hfc⟩ := hc
    obtain ⟨hsq1, hsq9, hsqne, hsqd⟩ := hfacts sq hsq
    have hq0 : 0 ≤ getIndexFromSquareNumber sq := by
      unfold getIndexFromSquareNumber
      omega
    have hqlt : (getIndexFromSquareNumber sq).toNat < s.length := by
      unfold getIndexFromSquareNumber
      omega
    have htv : jsGet s (getIndexFromSquareNumber sq) =
        s.get ⟨(getIndexFromSquareNumber sq).toNat, hqlt⟩ :=
      jsGet_toNat_lt s hq0 hqlt
    obtain ⟨t, ht9, hgt⟩ := valid_get_num hv hqlt
    rw [if_neg (by
      rw [htv, hgt]
      intro hcon
      exact JSVal.noConfusion hcon)] at hfc
    injection hfc with hfc
    rw [← hfc]
    have hc1 : jsSet (jsSet s (e : ℤ) (jsGet s (getIndexFromSquareNumber sq)))
        (getIndexFromSquareNumber sq) (.num 0) =
        (s.set e (s.get ⟨(getIndexFromSquareNumber sq).toNat, hqlt⟩)).set
          (getIndexFromSquareNumber sq).toNat (.num 0) := by
      rw [htv, jsSet_coe_lt s e _ hee,
        jsSet_toNat_lt _ _ hq0 (by simpa using hqlt)]
    rw [hc1]
    have hblank : s.get ⟨e, hee⟩ = JSVal.num 0 := of_decide_eq_true hpe
    have hneq : e ≠ (getIndexFromSquareNumber sq).toNat := by
      unfold getIndexFromSquareNumber
      omega
    have hdiff : (getIndexFromSquareNumber sq).toNat = e + 1 ∨
        e = (getIndexFromSquareNumber sq).toNat + 1 ∨
        (getIndexFromSquareNumber sq).toNat = e + 3 ∨
        e = (getIndexFromSquareNumber sq).toNat + 3 := by
      unfold getIndexFromSquareNumber
      omega
    exact move_parity_valid hv e (getIndexFromSquareNumber sq).toNat hee
      hqlt hneq hdiff hblank

/-- Reachability from a valid board preserves parity and validity. -/
theorem reachable_parity :
    ∀ (k : ℕ) {b c : BoardState}, b.Perm (validBoard 9) →
    ReachableIn k b c → invParity c = invParity b ∧ c.Perm (validBoard 9) := by
  intro k
  induction k with
  | zero =>
    intro b c hv h
    have : b = c := h
    subst this
    exact ⟨rfl, hv⟩
  | succ k ih =>
    intro b c hv h
    obtain ⟨m, hm, hrest⟩ := h
    obtain ⟨hp1, hp2⟩ := legalNext_parity hv hm
    obtain ⟨hp3, hp4⟩ := ih hp2 hrest
    exact ⟨hp3.trans hp1, hp4⟩

/-- Reachability can be extended at the far end by a legal move. -/
theorem reachableIn_snoc :
    ∀ (k : ℕ) {b mid c : BoardState}, ReachableIn k b mid →
    c ∈ legalNextStates mid → ReachableIn (k + 1) b c := by
  intro k
  induction k with
  | zero =>
    intro b mid c h hc
    have hbm : b = mid := h
    subst hbm
    exact ⟨c, hc, rfl⟩
  | succ k ih =>
    intro b mid c h hc
    obtain ⟨m, hm, hrest⟩ := h
    exact ⟨m, hm, ih hrest hc⟩

/-- A chain of generated moves under `POS_ADJACENCY` witnesses a legal
reachability of the same length. -/
theorem chainFrom_reachable {b : BoardState} {path : List SearchNodeAction}
    {c : BoardState} (h : ChainFrom POS_ADJACENCY b path c) :
    ReachableIn path.length b c := by
  induction h with
  | nil => exact rfl
  | snoc path mid act c e movable hch hfind hadj hmem hto htv hnn hc ih =>
    have hcm : c ∈ legalNextStates mid := by
      unfold legalNextStates
      rw [hfind]
      dsimp only
      rw [hadj]
      dsimp only
      rw [List.mem_filterMap]
      refine ⟨act.fromIndex + 1, hmem, ?_⟩
      have hidx : getIndexFromSquareNumber (act.fromIndex + 1) =
          act.fromIndex := by
        unfold getIndexFromSquareNumber
        ring
      rw [hidx, if_neg (htv ▸ hnn), hc, htv]
    have hlen2 : (path ++ [act]).length = path.length + 1 := by simp
    rw [hlen2]
    exact reachableIn_snoc path.length ih hcm

/-! ## Termination of the search loop

Each iteration either shrinks the open set or pushes nodes whose state
keys are new in the closed set; the closed set only ever holds keys of
permutations of the tiles, of which there are at most `9! = 362880`.
Hence the measure `|open| + 2 * (362881 - |closed|)` strictly decreases
and `SEARCH_FUEL` iterations suffice. -/

theorem boardKey_inj_valid {s t : BoardState}
    (hs : s.Perm (validBoard 9)) (ht : t.Perm (validBoard 9))
    (h : boardKey s = boardKey t) : s = t := by
  have hlen : s.length = t.length := by
    have := congrArg List.length h
    simpa [boardKey] using this
  apply List.ext_get hlen
  intro n h1 h2
  have h1x : n < (boardKey s).length := by simpa [boardKey] using h1
  have h2x : n < (boardKey t).length := by simpa [boardKey] using h2
  have hbk : (boardKey s)[n] = (boardKey t)[n] := by simp only [h]
  obtain ⟨a, -, hsa⟩ := valid_get_num hs h1
  obtain ⟨b, -, htb⟩ := valid_get_num ht h2
  simp only [List.get_eq_getElem] at hsa htb
  simp only [boardKey, List.getElem_map, hsa, htb] at hbk
  simp only [List.get_eq_getElem, hsa, htb]
  simp only [Option.some.injEq] at hbk
  norm_cast at hbk
  rw [hbk]

theorem nodup_concat_of_not_mem {α : Type} {l : List α} {a : α}
    (hnd : l.Nodup) (ha : a ∉ l) : (l ++ [a]).Nodup := by
  rw [List.nodup_append]
  exact ⟨hnd, List.nodup_singleton a, by
    intro x hx hxa
    rw [List.mem_singleton] at hxa
    subst hxa
    exact ha hx⟩

theorem closed_card_bound {closed : List (List (Option ℤ))}
    (hnd : closed.Nodup)
    (hval : ∀ key ∈ closed, ∃ s : BoardState,
      s.Perm (validBoard 9) ∧ key = boardKey s) :
    closed.length ≤ 362880 := by
  have hsub : ∀ key ∈ closed,
      key ∈ (validBoard 9).permutations.map boardKey := by
    intro key hk
    obtain ⟨s, hs, rfl⟩ := hval key hk
    exact List.mem_map.mpr ⟨s, List.mem_permutations.mpr hs, rfl⟩
  calc closed.length = closed.toFinset.card :=
        (List.toFinset_card_of_nodup hnd).symm
    _ ≤ ((validBoard 9).permutations.map boardKey).toFinset.card := by
        apply Finset.card_le_card
        intro x hx
        rw [List.mem_toFinset] at hx ⊢
        exact hsub x hx
    _ ≤ ((validBoard 9).permutations.map boardKey).length :=
        List.toFinset_card_le _
    _ = (validBoard 9).permutations.length := by simp
    _ = Nat.factorial 9 := by
        rw [List.length_permutations, length_validBoard]
    _ = 362880 := by norm_num [Nat.factorial]

/-- The loop invariant of the search, with the ghost list `popped` of
states already expanded. -/
structure LoopInv (b0 : BoardState) (openSet : List SearchNode)
    (closed : List (List (Option ℤ))) (popped : List BoardState) : Prop where
  openChain : ∀ nd ∈ openSet, NodeChain POS_ADJACENCY nd ∧ nodeRoot nd = b0 ∧
    nd.state.Perm (validBoard 9) ∧ boardKey nd.state ∈ closed
  closedNodup : closed.Nodup
  closedValid : ∀ key ∈ closed, ∃ s : BoardState,
    s.Perm (validBoard 9) ∧ key = boardKey s
  closedCover : ∀ key ∈ closed, (∃ nd ∈ openSet, key = boardKey nd.state) ∨
    (∃ s ∈ popped, key = boardKey s)
  poppedValid : ∀ s ∈ popped, s.Perm (validBoard 9)
  poppedNext : ∀ s ∈ popped, ∀ c ∈ legalNextStates s, boardKey c ∈ closed
  poppedNotGoal : ∀ s ∈ popped, s ≠ GOAL_STATE
  rootClosed : boardKey b0 ∈ closed

theorem SearchNode_state_start (s : BoardState) (g h f : ℕ) :
    (SearchNode.start s g h f).state = s := rfl

theorem SearchNode_state_step (s : BoardState) (p : SearchNode)
    (a : SearchNodeAction) (g h f : ℕ) :
    (SearchNode.step s p a g h f).state = s := rfl

/-- Pushing a freshly generated node onto the open set and its key onto
the closed set re-establishes the open/closed invariants. -/
theorem push_reestablishes (b0 : BoardState) (popped : List BoardState)
    (nb : SearchNode) (openAcc : List SearchNode)
    (closedAcc : List (List (Option ℤ)))
    (hchain : NodeChain POS_ADJACENCY nb) (hroot : nodeRoot nb = b0)
    (hnv : nb.state.Perm (validBoard 9))
    (hcl : boardKey nb.state ∉ closedAcc)
    (h1 : ∀ nd ∈ openAcc, NodeChain POS_ADJACENCY nd ∧ nodeRoot nd = b0 ∧
      nd.state.Perm (validBoard 9) ∧ boardKey nd.state ∈ closedAcc)
    (h2 : closedAcc.Nodup)
    (h3 : ∀ key ∈ closedAcc, ∃ s : BoardState,
      s.Perm (validBoard 9) ∧ key = boardKey s)
    (h4 : ∀ key ∈ closedAcc, (∃ nd ∈ openAcc, key = boardKey nd.state) ∨
      (∃ s ∈ popped, key = boardKey s)) :
    (∀ nd ∈ openAcc ++ [nb], NodeChain POS_ADJACENCY nd ∧ nodeRoot nd = b0 ∧
      nd.state.Perm (validBoard 9) ∧
      boardKey nd.state ∈ closedAcc ++ [boardKey nb.state]) ∧
    (closedAcc ++ [boardKey nb.state]).Nodup ∧
    (∀ key ∈ closedAcc ++ [boardKey nb.state], ∃ s : BoardState,
      s.Perm (validBoard 9) ∧ key = boardKey s) ∧
    (∀ key ∈ closedAcc ++ [boardKey nb.state],
      (∃ nd ∈ openAcc ++ [nb], key = boardKey nd.state) ∨
      (∃ s ∈ popped, key = boardKey s)) := by
  refine ⟨?_, nodup_concat_of_not_mem h2 hcl, ?_, ?_⟩
  · intro nd hnd
    rcases List.mem_append.mp hnd with hin | hnew
    · obtain ⟨p1, p2, p3, p4⟩ := h1 nd hin
      exact ⟨p1, p2, p3, List.mem_append_left _ p4⟩
    · have hnd2 := List.mem_singleton.mp hnew
      subst hnd2
      exact ⟨hchain, hroot, hnv, List.mem_append_right _ (by simp)⟩
  · intro key hk
    rcases List.mem_append.mp hk with hin | hnew
    · exact h3 key hin
    · have := List.mem_singleton.mp hnew
      subst this
      exact ⟨_, hnv, rfl⟩
  · intro key hk
    rcases List.mem_append.mp hk with hin | hnew
    · rcases h4 key hin with ⟨nd, hnd, hkey⟩ | hpop
      · exact Or.inl ⟨nd, List.mem_append_left _ hnd, hkey⟩
      · exact Or.inr hpop
    · have := List.mem_singleton.mp hnew
      subst this
      exact Or.inl ⟨nb, List.mem_append_right _ (by simp), rfl⟩

/-- Post-condition of one pass of the neighbour loop: the invariants are
re-established for the returned open/closed pair, the closed set only
grew, and the measure `|open| - 2|closed|` did not increase. -/
def ExpandPost (b0 : BoardState) (popped : List BoardState)
    (openAcc : List SearchNode) (closedAcc : List (List (Option ℤ)))
    (res : List SearchNode × List (List (Option ℤ))) : Prop :=
  (∀ nd ∈ res.1, NodeChain POS_ADJACENCY nd ∧ nodeRoot nd = b0 ∧
    nd.state.Perm (validBoard 9) ∧ boardKey nd.state ∈ res.2) ∧
  res.2.Nodup ∧
  (∀ key ∈ res.2, ∃ s : BoardState,
    s.Perm (validBoard 9) ∧ key = boardKey s) ∧
  (∀ key ∈ res.2, (∃ nd ∈ res.1, key = boardKey nd.state) ∨
    (∃ s ∈ popped, key = boardKey s)) ∧
  (∃ grown, res.2 = closedAcc ++ grown) ∧
  res.1.length + 2 * closedAcc.length ≤ openAcc.length + 2 * res.2.length

theorem expandMoves_accounting (b0 : BoardState)
    (currentNode : SearchNode) (emptyIdx : ℕ) (movable0 : List ℤ)
    (popped : List BoardState)
    (hcur : NodeChain POS_ADJACENCY currentNode)
    (hroot : nodeRoot currentNode = b0)
    (hcv : currentNode.state.Perm (validBoard 9))
    (hfind : currentNode.state.findIdx? (· = JSVal.num 0) = some emptyIdx)
    (hadj : POS_ADJACENCY (getSquareNumberFromIndex emptyIdx) = some movable0) :
    ∀ (movable : List ℤ), (∀ sq ∈ movable, sq ∈ movable0) →
    ∀ (openAcc : List SearchNode) (closedAcc : List (List (Option ℤ))),
    (∀ nd ∈ openAcc, NodeChain POS_ADJACENCY nd ∧ nodeRoot nd = b0 ∧
      nd.state.Perm (validBoard 9) ∧ boardKey nd.state ∈ closedAcc) →
    closedAcc.Nodup →
    (∀ key ∈ closedAcc, ∃ s : BoardState,
      s.Perm (validBoard 9) ∧ key = boardKey s) →
    (∀ key ∈ closedAcc, (∃ nd ∈ openAcc, key = boardKey nd.state) ∨
      (∃ s ∈ popped, key = boardKey s)) →
    ExpandPost b0 popped openAcc closedAcc
      (expandMoves currentNode emptyIdx movable openAcc closedAcc) ∧
    (∀ sq ∈ movable,
      jsGet currentNode.state (getIndexFromSquareNumber sq) ≠ JSVal.null →
      boardKey (jsSet (jsSet currentNode.state (emptyIdx : ℤ)
          (jsGet currentNode.state (getIndexFromSquareNumber sq)))
        (getIndexFromSquareNumber sq) (.num 0)) ∈
        (expandMoves currentNode emptyIdx movable openAcc closedAcc).2) := by
  intro movable
  induction movable with
  | nil =>
    intro _ openAcc closedAcc h1 h2 h3 h4
    rw [expandMoves]
    refine ⟨⟨h1, h2, h3, h4, ⟨[], by simp⟩, by dsimp only; omega⟩, ?_⟩
    intro sq hsq
    simp at hsq
  | cons sq rest ih =>
    intro hsub openAcc closedAcc h1 h2 h3 h4
    have hsubr : ∀ s ∈ rest, s ∈ movable0 := fun s hs => hsub s (by simp [hs])
    have hsq0 : sq ∈ movable0 := hsub sq (by simp)
    rw [expandMoves]
    by_cases hnull : jsGet currentNode.state (getIndexFromSquareNumber sq) =
        JSVal.null
    · rw [if_pos hnull]
      obtain ⟨hpost, hc4⟩ := ih hsubr openAcc closedAcc h1 h2 h3 h4
      refine ⟨hpost, ?_⟩
      intro sq2 hsq2 hnn
      rcases List.mem_cons.mp hsq2 with rfl | hsq2r
      · exact absurd hnull hnn
      · exact hc4 sq2 hsq2r hnn
    · rw [if_neg hnull]
      by_cases hcl : boardKey
          (jsSet (jsSet currentNode.state (emptyIdx : ℤ)
              (jsGet currentNode.state (getIndexFromSquareNumber sq)))
            (getIndexFromSquareNumber sq) (.num 0)) ∈ closedAcc
      · rw [if_pos hcl]
        obtain ⟨hpost, hc4⟩ := ih hsubr openAcc closedAcc h1 h2 h3 h4
        refine ⟨hpost, ?_⟩
        intro sq2 hsq2 hnn
        rcases List.mem_cons.mp hsq2 with rfl | hsq2r
        · obtain ⟨grown, hgr⟩ := hpost.2.2.2.2.1
          rw [hgr]
          exact List.mem_append_left _ hcl
        · exact hc4 sq2 hsq2r hnn
      · rw [if_neg hcl]
        -- the scan over the open set can never find a node with this
        -- state: every open state's key is already closed
        have hscan : openAcc.findIdx? (fun nd => areArraysEqual nd.state
            (jsSet (jsSet currentNode.state (emptyIdx : ℤ)
                (jsGet currentNode.state (getIndexFromSquareNumber sq)))
              (getIndexFromSquareNumber sq) (.num 0))) = none := by
          rcases hf : openAcc.findIdx? (fun nd => areArraysEqual nd.state
              (jsSet (jsSet currentNode.state (emptyIdx : ℤ)
                  (jsGet currentNode.state (getIndexFromSquareNumber sq)))
                (getIndexFromSquareNumber sq) (.num 0))) with _ | i
          · exact hf
          · exfalso
            obtain ⟨hlt, hp, -⟩ := findIdx?_some_facts hf
            have hmem : openAcc.get ⟨i, hlt⟩ ∈ openAcc := List.get_mem _ _ _
            have hkey := (h1 _ hmem).2.2.2
            have hst := (areArraysEqual_iff _ _).mp hp
            rw [hst] at hkey
            exact hcl hkey
        rw [hscan]
        dsimp only
        -- the push branch
        have hlnext : jsSet (jsSet currentNode.state (emptyIdx : ℤ)
            (jsGet currentNode.state (getIndexFromSquareNumber sq)))
            (getIndexFromSquareNumber sq) (.num 0) ∈
            legalNextStates currentNode.state := by
          unfold legalNextStates
          rw [hfind]
          dsimp only
          rw [hadj]
          dsimp only
          rw [List.mem_filterMap]
          exact ⟨sq, hsq0, by rw [if_neg hnull]⟩
        have hnv : (jsSet (jsSet currentNode.state (emptyIdx : ℤ)
            (jsGet currentNode.state (getIndexFromSquareNumber sq)))
            (getIndexFromSquareNumber sq) (.num 0)).Perm (validBoard 9) :=
          (legalNext_parity hcv hlnext).2
        have hchain : NodeChain POS_ADJACENCY (SearchNode.step
            (jsSet (jsSet currentNode.state (emptyIdx : ℤ)
                (jsGet currentNode.state (getIndexFromSquareNumber sq)))
              (getIndexFromSquareNumber sq) (.num 0))
            currentNode
            ⟨jsGet currentNode.state (getIndexFromSquareNumber sq),
              getIndexFromSquareNumber sq, (emptyIdx : ℤ)⟩
            (currentNode.g + 1)
            (hGoal (jsSet (jsSet currentNode.state (emptyIdx : ℤ)
                (jsGet currentNode.state (getIndexFromSquareNumber sq)))
              (getIndexFromSquareNumber sq) (.num 0)))
            (currentNode.g + 1 +
              hGoal (jsSet (jsSet currentNode.state (emptyIdx : ℤ)
                  (jsGet currentNode.state (getIndexFromSquareNumber sq)))
                (getIndexFromSquareNumber sq) (.num 0)))) := by
          refine NodeChain.step _ _ _ _ _ _ emptyIdx movable0 hcur hfind hadj
            ?_ rfl rfl hnull rfl
          show getIndexFromSquareNumber sq + 1 ∈ movable0
          have heq : getIndexFromSquareNumber sq + 1 = sq := by
            unfold getIndexFromSquareNumber; ring
          rw [heq]
          exact hsq0
        obtain ⟨q1, q2, q3, q4⟩ := push_reestablishes b0 popped _ openAcc
          closedAcc hchain hroot hnv hcl h1 h2 h3 h4
        simp only [SearchNode_state_step] at q1 q2 q3 q4
        obtain ⟨hpost, hc4⟩ := ih hsubr _ _ q1 q2 q3 q4
        refine ⟨?_, ?_⟩
        · obtain ⟨p1, p2, p3, p4, ⟨grown, hgr⟩, p6⟩ := hpost
          refine ⟨p1, p2, p3, p4, ⟨_, by rw [hgr, List.append_assoc]⟩, ?_⟩
          simp only [List.length_append, List.length_singleton] at p6 ⊢
          omega
        · intro sq2 hsq2 hnn
          rcases List.mem_cons.mp hsq2 with rfl | hsq2r
          · obtain ⟨grown, hgr⟩ := hpost.2.2.2.2.1
            rw [hgr]
            exact List.mem_append_left _ (List.mem_append_right _ (by simp))
          · exact hc4 sq2 hsq2r hnn

/-- A set of boards containing the start, avoiding the goal, and closed
under legal moves witnesses unreachability of the goal. -/
theorem closure_not_reachable {F : List BoardState}
    (hcl : ∀ s ∈ F, s ≠ GOAL_STATE ∧ ∀ c ∈ legalNextStates s, c ∈ F) :
    ∀ (k : ℕ) {s : BoardState}, s ∈ F → ¬ReachableIn k s GOAL_STATE := by
  intro k
  induction k with
  | zero =>
    intro s hs hr
    exact (hcl s hs).1 hr
  | succ k ih =>
    intro s hs hr
    obtain ⟨m, hm, hrest⟩ := hr
    exact ih ((hcl s hs).2 m hm) hrest

/-- The search loop terminates within the fuel bound: from any state
satisfying the loop invariant it either returns a path, or returns the
null signal having popped a move-closed, goal-free set of boards that
contains the start board. -/
theorem searchLoop_terminates (b0 : BoardState)
    (hb0 : b0.Perm (validBoard 9)) :
    ∀ (fuel : ℕ) (openSet : List SearchNode)
      (closed : List (List (Option ℤ))) (popped : List BoardState),
    LoopInv b0 openSet closed popped →
    openSet.length + 2 * (362881 - closed.length) ≤ fuel →
    (∃ path, searchLoop POS_ADJACENCY fuel openSet closed =
      some (some path)) ∨
    (searchLoop POS_ADJACENCY fuel openSet closed = some none ∧
      ∃ poppedF : List BoardState, b0 ∈ poppedF ∧
        ∀ s ∈ poppedF, s ≠ GOAL_STATE ∧
          ∀ c ∈ legalNextStates s, c ∈ poppedF) := by
  intro fuel
  induction fuel with
  | zero =>
    intro openSet closed popped hinv hfuel
    exfalso
    have hbound := closed_card_bound hinv.closedNodup hinv.closedValid
    have hpos : closed ≠ [] := List.ne_nil_of_mem hinv.rootClosed
    have : 0 < closed.length := List.length_pos.mpr hpos
    omega
  | succ fuel ih =>
    intro openSet closed popped hinv hfuel
    have hperm := List.perm_insertionSort (fun a b => a.f ≤ b.f) openSet
    rcases hsort : List.insertionSort (fun a b => a.f ≤ b.f) openSet with
      _ | ⟨currentNode, restOpen⟩
    · -- open set exhausted: the loop returns null and `popped` is a
      -- move-closed set of boards containing the start
      rw [hsort] at hperm
      have hopen0 : openSet = [] := hperm.symm.eq_nil
      refine Or.inr ⟨by rw [searchLoop, hsort], popped, ?_, ?_⟩
      · rcases hinv.closedCover _ hinv.rootClosed with ⟨nd, hnd, -⟩ | hpop
        · rw [hopen0] at hnd
          simp at hnd
        · obtain ⟨s, hsmem, hkey⟩ := hpop
          have := boardKey_inj_valid (hinv.poppedValid s hsmem) hb0 hkey.symm
          rwa [this] at hsmem
      · intro s hs
        refine ⟨hinv.poppedNotGoal s hs, ?_⟩
        intro c hc
        have hkey := hinv.poppedNext s hs c hc
        rcases hinv.closedCover _ hkey with ⟨nd, hnd, -⟩ | hpop
        · rw [hopen0] at hnd
          simp at hnd
        · obtain ⟨p, hpmem, hkey2⟩ := hpop
          have hcv := (legalNext_parity (hinv.poppedValid s hs) hc).2
          have := boardKey_inj_valid (hinv.poppedValid p hpmem) hcv hkey2.symm
          rwa [this] at hpmem
    · rw [hsort] at hperm
      have hcmem : currentNode ∈ openSet := hperm.subset (by simp)
      obtain ⟨hchain, hroot, hval, hkeycl⟩ := hinv.openChain currentNode hcmem
      by_cases hgoal : areArraysEqual currentNode.state GOAL_STATE = true
      · exact Or.inl ⟨reconstructPath currentNode, by
          rw [searchLoop, hsort]
          dsimp only
          rw [if_pos hgoal]⟩
      · have hngoal : currentNode.state ≠ GOAL_STATE := fun hc =>
          hgoal ((areArraysEqual_iff _ _).mpr hc)
        have h0mem : JSVal.num 0 ∈ currentNode.state :=
          hval.mem_iff.mpr (by decide)
        obtain ⟨e, hfind⟩ := findIdx?_isSome_of_mem h0mem
        obtain ⟨hee, -, -⟩ := findIdx?_some_facts hfind
        have he9 : e < 9 := (valid_length hval) ▸ hee
        obtain ⟨movable0, hmov, -⟩ := POS_ADJACENCY_facts e he9
        -- invariants for the expansion, with the current state popped
        have hrest : ∀ nd ∈ restOpen, NodeChain POS_ADJACENCY nd ∧
            nodeRoot nd = b0 ∧ nd.state.Perm (validBoard 9) ∧
            boardKey nd.state ∈ closed := fun nd hnd =>
          hinv.openChain nd (hperm.subset (by simp [hnd]))
        have hcover2 : ∀ key ∈ closed,
            (∃ nd ∈ restOpen, key = boardKey nd.state) ∨
            (∃ s ∈ popped ++ [currentNode.state], key = boardKey s) := by
          intro key hk
          rcases hinv.closedCover key hk with ⟨nd, hnd, hkey⟩ | hpop
          · have : nd ∈ currentNode :: restOpen := hperm.mem_iff.mpr hnd
            rcases List.mem_cons.mp this with rfl | hndr
            · exact Or.inr ⟨nd.state, List.mem_append_right _ (by simp), hkey⟩
            · exact Or.inl ⟨nd, hndr, hkey⟩
          · obtain ⟨s, hsmem, hkey⟩ := hpop
            exact Or.inr ⟨s, List.mem_append_left _ hsmem, hkey⟩
        obtain ⟨hpost, hc4⟩ := expandMoves_accounting b0 currentNode e movable0
          (popped ++ [currentNode.state]) hchain hroot hval hfind hmov
          movable0 (fun _ h => h) restOpen closed hrest hinv.closedNodup
          hinv.closedValid hcover2
        obtain ⟨p1, p2, p3, p4, ⟨grown, hgr⟩, p6⟩ := hpost
        have hclsub : ∀ key ∈ closed, key ∈
            (expandMoves currentNode e movable0 restOpen closed).2 := by
          intro key hk
          rw [hgr]
          exact List.mem_append_left _ hk
        have hinv2 : LoopInv b0
            (expandMoves currentNode e movable0 restOpen closed).1
            (expandMoves currentNode e movable0 restOpen closed).2
            (popped ++ [currentNode.state]) := by
          refine ⟨p1, p2, p3, p4, ?_, ?_, ?_, hclsub _ hinv.rootClosed⟩
          · intro s hs
            rcases List.mem_append.mp hs with hold | hnew
            · exact hinv.poppedValid s hold
            · rw [List.mem_singleton.mp hnew]
              exact hval
          · intro s hs c hc
            rcases List.mem_append.mp hs with hold | hnew
            · exact hclsub _ (hinv.poppedNext s hold c hc)
            · rw [List.mem_singleton.mp hnew] at hc
              unfold legalNextStates at hc
              rw [hfind] at hc
              dsimp only at hc
              rw [hmov] at hc
              dsimp only at hc
              rw [List.mem_filterMap] at hc
              obtain ⟨sq, hsq, hfc⟩ := hc
              by_cases hnull : jsGet currentNode.state
                  (getIndexFromSquareNumber sq) = JSVal.null
              · rw [if_pos hnull] at hfc
                exact absurd hfc (by simp)
              · rw [if_neg hnull] at hfc
                injection hfc with hfc
                rw [← hfc]
                exact hc4 sq hsq hnull
          · intro s hs
            rcases List.mem_append.mp hs with hold | hnew
            · exact hinv.poppedNotGoal s hold
            · rw [List.mem_singleton.mp hnew]
              exact hngoal
        have hbound := closed_card_bound p2 p3
        have hclen : closed.length ≤
            (expandMoves currentNode e movable0 restOpen closed).2.length := by
          rw [hgr]
          simp
        have hcpos : 0 < closed.length :=
          List.length_pos.mpr (List.ne_nil_of_mem hinv.rootClosed)
        have holen : openSet.length = restOpen.length + 1 := by
          rw [← hperm.length_eq]
          rfl
        have hmeas2 :
            (expandMoves currentNode e movable0 restOpen closed).1.length +
            2 * (362881 -
              (expandMoves currentNode e movable0 restOpen closed).2.length) ≤
            fuel := by
          omega
        have hres := ih _ _ _ hinv2 hmeas2
        have hstep : searchLoop POS_ADJACENCY (fuel + 1) openSet closed =
            searchLoop POS_ADJACENCY fuel
              (expandMoves currentNode e movable0 restOpen closed).1
              (expandMoves currentNode e movable0 restOpen closed).2 := by
          rw [searchLoop, hsort]
          dsimp only
          rw [if_neg hgoal, hfind]
          dsimp only
          rw [hmov]
        rw [hstep]
        exact hres

/-- C3.  On every valid board whose inversion parity differs from the
goal's, `GOAL_STATE` is unreachable in any number of legal moves, and
`performAStarSearch` terminates within its fuel after exhausting the
reachable states, returning the unsolvable signal `null` (`some none`) —
never a path and never non-termination (fuel exhaustion, `none`). -/
theorem performAStarSearch_unsolvable (b : BoardState)
    (hb : b.Perm (validBoard 9))
    (hpar : invParity b ≠ invParity GOAL_STATE) :
    (∀ k, ¬ReachableIn k b GOAL_STATE) ∧
    performAStarSearch b POS_ADJACENCY = some none := by
  have hunreach : ∀ k, ¬ReachableIn k b GOAL_STATE := by
    intro k hr
    obtain ⟨hp, -⟩ := reachable_parity k hb hr
    exact hpar hp.symm
  refine ⟨hunreach, ?_⟩
  have hbg : b ≠ GOAL_STATE := by
    intro h
    rw [h] at hpar
    exact hpar rfl
  have hg : ¬(areArraysEqual b GOAL_STATE = true) := fun hc =>
    hbg ((areArraysEqual_iff _ _).mp hc)
  unfold performAStarSearch
  rw [if_neg hg]
  have hinv : LoopInv b [SearchNode.start b 0 (hGoal b) (0 + hGoal b)]
      [boardKey b] [] := by
    refine ⟨?_, List.nodup_singleton _, ?_, ?_, by simp, by simp, by simp,
      by simp⟩
    · intro nd hnd
      rw [List.mem_singleton.mp hnd]
      exact ⟨NodeChain.start _ _ _ _, rfl, hb, by
        simp [SearchNode_state_start]⟩
    · intro key hk
      rw [List.mem_singleton.mp hk]
      exact ⟨b, hb, rfl⟩
    · intro key hk
      rw [List.mem_singleton.mp hk]
      exact Or.inl ⟨SearchNode.start b 0 (hGoal b) (0 + hGoal b), by simp, rfl⟩
  have hmeas : ([SearchNode.start b 0 (hGoal b) (0 + hGoal b)]).length +
      2 * (362881 - ([boardKey b]).length) ≤ SEARCH_FUEL := by
    show (1 : ℕ) + 2 * (362881 - 1) ≤ SEARCH_FUEL
    unfold SEARCH_FUEL
    norm_num
  rcases searchLoop_terminates b hb SEARCH_FUEL _ _ _ hinv hmeas with
    ⟨path, hpath⟩ | ⟨hnull, -⟩
  · exfalso
    obtain ⟨nd, hc, hr, hgst, -⟩ := searchLoop_success POS_ADJACENCY b
      SEARCH_FUEL _ _ path
      (by
        intro nd hnd
        rw [List.mem_singleton.mp hnd]
        exact ⟨NodeChain.start _ _ _ _, rfl⟩)
      hpath
    have hch := nodeChain_chainFrom hc
    rw [hr, hgst] at hch
    exact hunreach _ (chainFrom_reachable hch)
  · exact hnull

/-- Witness for C3 at the spec's concrete scenario `[8,1,2,0,4,3,7,6,5]`. -/
theorem performAStarSearch_unsolvable_witness :
    ([JSVal.num 8, JSVal.num 1, JSVal.num 2, JSVal.num 0, JSVal.num 4,
      JSVal.num 3, JSVal.num 7, JSVal.num 6, JSVal.num 5] : BoardState).Perm
      (validBoard 9) ∧
    invParity [JSVal.num 8, JSVal.num 1, JSVal.num 2, JSVal.num 0, JSVal.num 4,
      JSVal.num 3, JSVal.num 7, JSVal.num 6, JSVal.num 5] ≠
      invParity GOAL_STATE ∧
    (∀ k, ¬ReachableIn k
      [JSVal.num 8, JSVal.num 1, JSVal.num 2, JSVal.num 0, JSVal.num 4,
       JSVal.num 3, JSVal.num 7, JSVal.num 6, JSVal.num 5] GOAL_STATE) ∧
    performAStarSearch
      [JSVal.num 8, JSVal.num 1, JSVal.num 2, JSVal.num 0, JSVal.num 4,
       JSVal.num 3, JSVal.num 7, JSVal.num 6, JSVal.num 5] POS_ADJACENCY =
      some none := by
  have h1 : ([JSVal.num 8, JSVal.num 1, JSVal.num 2, JSVal.num 0, JSVal.num 4,
      JSVal.num 3, JSVal.num 7, JSVal.num 6, JSVal.num 5] : BoardState).Perm
      (validBoard 9) := by decide
  have h2 : invParity [JSVal.num 8, JSVal.num 1, JSVal.num 2, JSVal.num 0,
      JSVal.num 4, JSVal.num 3, JSVal.num 7, JSVal.num 6, JSVal.num 5] ≠
      invParity GOAL_STATE := by decide
  obtain ⟨ha, hb⟩ := performAStarSearch_unsolvable _ h1 h2
  exact ⟨h1, h2, ha, hb⟩

/-- The start board `[1,6,2,4,8,0,7,3,5]` on which the search returns a
non-minimal path: the returned path has 13 moves while the goal is
reachable in 11. -/
def cexBoard : BoardState :=
  [JSVal.num 1, JSVal.num 6, JSVal.num 2, JSVal.num 4, JSVal.num 8, JSVal.num 0, JSVal.num 7, JSVal.num 3, JSVal.num 5]

theorem reachableIn_cons {b m c : BoardState} (hm : m ∈ legalNextStates b)
    {k : ℕ} (h : ReachableIn k m c) : ReachableIn (k + 1) b c := ⟨m, hm, h⟩

/-- C1, counterexample.  From `cexBoard` the goal is reachable in 11
legal moves, yet `performAStarSearch` returns a path of 13 moves: the
returned length is not the minimum number of moves (the closed set is
populated at generation time, so a shorter route to an already-generated
state is discarded and the open-set replacement branch never runs). -/
theorem performAStarSearch_not_optimal_cex :
    ReachableIn 11 cexBoard GOAL_STATE ∧
    ∃ path, performAStarSearch cexBoard POS_ADJACENCY = some (some path) ∧
      path.length = 13 := by
  constructor
  · exact reachableIn_cons (m := [JSVal.num 1, JSVal.num 6, JSVal.num 2, JSVal.num 4, JSVal.num 0, JSVal.num 8, JSVal.num 7, JSVal.num 3, JSVal.num 5])
      (by decide)
      (reachableIn_cons (m := [JSVal.num 1, JSVal.num 6, JSVal.num 2, JSVal.num 4, JSVal.num 3, JSVal.num 8, JSVal.num 7, JSVal.num 0, JSVal.num 5])
      (by decide)
      (reachableIn_cons (m := [JSVal.num 1, JSVal.num 6, JSVal.num 2, JSVal.num 4, JSVal.num 3, JSVal.num 8, JSVal.num 7, JSVal.num 5, JSVal.num 0])
      (by decide)
      (reachableIn_cons (m := [JSVal.num 1, JSVal.num 6, JSVal.num 2, JSVal.num 4, JSVal.num 3, JSVal.num 0, JSVal.num 7, JSVal.num 5, JSVal.num 8])
      (by decide)
      (reachableIn_cons (m := [JSVal.num 1, JSVal.num 6, JSVal.num 2, JSVal.num 4, JSVal.num 0, JSVal.num 3, JSVal.num 7, JSVal.num 5, JSVal.num 8])
      (by decide)
      (reachableIn_cons (m := [JSVal.num 1, JSVal.num 0, JSVal.num 2, JSVal.num 4, JSVal.num 6, JSVal.num 3, JSVal.num 7, JSVal.num 5, JSVal.num 8])
      (by decide)
      (reachableIn_cons (m := [JSVal.num 1, JSVal.num 2, JSVal.num 0, JSVal.num 4, JSVal.num 6, JSVal.num 3, JSVal.num 7, JSVal.num 5, JSVal.num 8])
      (by decide)
      (reachableIn_cons (m := [JSVal.num 1, JSVal.num 2, JSVal.num 3, JSVal.num 4, JSVal.num 6, JSVal.num 0, JSVal.num 7, JSVal.num 5, JSVal.num 8])
      (by decide)
      (reachableIn_cons (m := [JSVal.num 1, JSVal.num 2, JSVal.num 3, JSVal.num 4, JSVal.num 0, JSVal.num 6, JSVal.num 7, JSVal.num 5, JSVal.num 8])
      (by decide)
      (reachableIn_cons (m := [JSVal.num 1, JSVal.num 2, JSVal.num 3, JSVal.num 4, JSVal.num 5, JSVal.num 6, JSVal.num 7, JSVal.num 0, JSVal.num 8])
      (by decide)
      (reachableIn_cons (m := [JSVal.num 1, JSVal.num 2, JSVal.num 3, JSVal.num 4, JSVal.num 5, JSVal.num 6, JSVal.num 7, JSVal.num 8, JSVal.num 0])
      (by decide)
      ((show ReachableIn 0 [JSVal.num 1, JSVal.num 2, JSVal.num 3, JSVal.num 4, JSVal.num 5, JSVal.num 6, JSVal.num 7, JSVal.num 8, JSVal.num 0] GOAL_STATE from rfl))))))))))))
  · have h : (performAStarSearch cexBoard POS_ADJACENCY).map
        (fun o => o.map List.length) = some (some 13) := by decide
    rcases hres : performAStarSearch cexBoard POS_ADJACENCY with _ | o
    · rw [hres] at h
      simp at h
    · rcases o with _ | path
      · rw [hres] at h
        simp at h
      · rw [hres] at h
        simp only [Option.map] at h
        injection h with h
        injection h with h
        exact ⟨path, rfl, h⟩

/-- C1, amended.  On every valid board from which `GOAL_STATE` is
reachable in some number of legal moves, `performAStarSearch` terminates
within its fuel and returns a non-null action sequence that solves the
board (but, per `performAStarSearch_not_optimal_cex`, not always one of
minimal length); the two concrete scenarios of the spec hold exactly as
stated. -/
theorem performAStarSearch_solvable :
    (∀ (b : BoardState) (k : ℕ), b.Perm (validBoard 9) →
      ReachableIn k b GOAL_STATE →
      ∃ path, performAStarSearch b POS_ADJACENCY = some (some path) ∧
        applySeq b path = GOAL_STATE) ∧
    performAStarSearch
      [JSVal.num 1, JSVal.num 2, JSVal.num 3, JSVal.num 4, JSVal.num 5,
       JSVal.num 6, JSVal.num 7, JSVal.num 0, JSVal.num 8] POS_ADJACENCY =
      some (some [⟨JSVal.num 8, 8, 7⟩]) ∧
    performAStarSearch
      [JSVal.num 1, JSVal.num 2, JSVal.num 3, JSVal.num 4, JSVal.num 0,
       JSVal.num 5, JSVal.num 7, JSVal.num 8, JSVal.num 6] POS_ADJACENCY =
      some (some [⟨JSVal.num 5, 5, 4⟩, ⟨JSVal.num 6, 8, 5⟩]) := by
  refine ⟨?_, by decide, by decide⟩
  intro b k hb hr
  by_cases hbg : b = GOAL_STATE
  · refine ⟨[], ?_, by rw [hbg]; rfl⟩
    unfold performAStarSearch
    rw [if_pos ((areArraysEqual_iff _ _).mpr hbg)]
  · have hg : ¬(areArraysEqual b GOAL_STATE = true) := fun hc =>
      hbg ((areArraysEqual_iff _ _).mp hc)
    have hinv : LoopInv b [SearchNode.start b 0 (hGoal b) (0 + hGoal b)]
        [boardKey b] [] := by
      refine ⟨?_, List.nodup_singleton _, ?_, ?_, by simp, by simp, by simp,
        by simp⟩
      · intro nd hnd
        rw [List.mem_singleton.mp hnd]
        exact ⟨NodeChain.start _ _ _ _, rfl, hb, by
          simp [SearchNode_state_start]⟩
      · intro key hk
        rw [List.mem_singleton.mp hk]
        exact ⟨b, hb, rfl⟩
      · intro key hk
        rw [List.mem_singleton.mp hk]
        exact Or.inl ⟨SearchNode.start b 0 (hGoal b) (0 + hGoal b),
          by simp, rfl⟩
    have hmeas : ([SearchNode.start b 0 (hGoal b) (0 + hGoal b)]).length +
        2 * (362881 - ([boardKey b]).length) ≤ SEARCH_FUEL := by
      show (1 : ℕ) + 2 * (362881 - 1) ≤ SEARCH_FUEL
      unfold SEARCH_FUEL
      norm_num
    rcases searchLoop_terminates b hb SEARCH_FUEL _ _ _ hinv hmeas with
      ⟨path, hpath⟩ | ⟨-, F, hbF, hclosure⟩
    · obtain ⟨nd, hc, hrt, hgst, hpe⟩ := searchLoop_success POS_ADJACENCY b
        SEARCH_FUEL _ _ path
        (by
          intro nd hnd
          rw [List.mem_singleton.mp hnd]
          exact ⟨NodeChain.start _ _ _ _, rfl⟩)
        hpath
      refine ⟨path, ?_, ?_⟩
      · unfold performAStarSearch
        rw [if_neg hg]
        exact hpath
      · have := nodeChain_applySeq hc
        rw [hrt, hgst, hpe] at this
        exact this
    · exact absurd hr (closure_not_reachable hclosure k hbF)

/-- Witness for the amended C1 at the spec's one-move scenario. -/
theorem performAStarSearch_solvable_witness :
    ([JSVal.num 1, JSVal.num 2, JSVal.num 3, JSVal.num 4, JSVal.num 5,
      JSVal.num 6, JSVal.num 7, JSVal.num 0, JSVal.num 8] :
      BoardState).Perm (validBoard 9) ∧
    ReachableIn 1
      [JSVal.num 1, JSVal.num 2, JSVal.num 3, JSVal.num 4, JSVal.num 5,
       JSVal.num 6, JSVal.num 7, JSVal.num 0, JSVal.num 8] GOAL_STATE ∧
    ∃ path, performAStarSearch
      [JSVal.num 1, JSVal.num 2, JSVal.num 3, JSVal.num 4, JSVal.num 5,
       JSVal.num 6, JSVal.num 7, JSVal.num 0, JSVal.num 8] POS_ADJACENCY =
      some (some path) ∧
    applySeq
      [JSVal.num 1, JSVal.num 2, JSVal.num 3, JSVal.num 4, JSVal.num 5,
       JSVal.num 6, JSVal.num 7, JSVal.num 0, JSVal.num 8] path =
      GOAL_STATE := by
  have hp : ([JSVal.num 1, JSVal.num 2, JSVal.num 3, JSVal.num 4, JSVal.num 5,
      JSVal.num 6, JSVal.num 7, JSVal.num 0, JSVal.num 8] :
      BoardState).Perm (validBoard 9) := by decide
  have hr : ReachableIn 1
      [JSVal.num 1, JSVal.num 2, JSVal.num 3, JSVal.num 4, JSVal.num 5,
       JSVal.num 6, JSVal.num 7, JSVal.num 0, JSVal.num 8] GOAL_STATE := by
    decide
  exact ⟨hp, hr, performAStarSearch_solvable.1 _ 1 hp hr⟩
